import Mathlib

/-
  A shallow embedding of the `pyparams` source-tree parameter rewriting engine
  (files `pyparams/pyparam.py`, `pyparams/pyparam_parser.py`,
  `pyparams/module.py`, `pyparams/modules_parser.py`).

  Python runtime values that can appear as parameter values are modelled by
  `PValue`; the Python `ast` fragment the scanner supports is modelled by
  `PExpr` / `PStmt`; YAML document trees (nested ordered dictionaries) are
  modelled by `YVal` / `YTree`.  Machine-level aspects (floats, `set` values,
  object identity hashing) are outside the modelled fragment; where the Python
  code would raise an exception, the embedding returns `Except.error`.
-/

/-- Model of the closed set of Python runtime values `pyparams` manipulates as
parameter values: int, str, bool, None, list, tuple and dict (`float` and
`set` values never arise in the modelled fragment and are omitted). -/
inductive PValue where
  | int (n : Int)
  | str (s : String)
  | bool (b : Bool)
  | none
  | list (xs : List PValue)
  | tuple (xs : List PValue)
  | dict (entries : List (PValue × PValue))
  deriving Repr

mutual

/-- Structural boolean equality on `PValue` (used to build decidable
equality; nested inductive, so the instance cannot be derived). -/
def PValue.beq : PValue → PValue → Bool
  | .int a, .int b => a == b
  | .str a, .str b => a == b
  | .bool a, .bool b => a == b
  | .none, .none => true
  | .list xs, .list ys => PValue.beqList xs ys
  | .tuple xs, .tuple ys => PValue.beqList xs ys
  | .dict xs, .dict ys => PValue.beqPairs xs ys
  | _, _ => false

/-- Pointwise `PValue.beq` on lists. -/
def PValue.beqList : List PValue → List PValue → Bool
  | [], [] => true
  | x :: xs, y :: ys => PValue.beq x y && PValue.beqList xs ys
  | _, _ => false

/-- Pointwise `PValue.beq` on key/value pair lists. -/
def PValue.beqPairs : List (PValue × PValue) → List (PValue × PValue) → Bool
  | [], [] => true
  | (k, v) :: xs, (k', v') :: ys => PValue.beq k k' && PValue.beq v v' && PValue.beqPairs xs ys
  | _, _ => false

end

mutual

theorem PValue.beq_iff : ∀ a b : PValue, PValue.beq a b = true ↔ a = b
  | .int _, .int _ => by simp [PValue.beq]
  | .str _, .str _ => by simp [PValue.beq]
  | .bool _, .bool _ => by simp [PValue.beq]
  | .none, .none => by simp [PValue.beq]
  | .list xs, .list ys => by simp [PValue.beq, PValue.beqList_iff xs ys]
  | .tuple xs, .tuple ys => by simp [PValue.beq, PValue.beqList_iff xs ys]
  | .dict xs, .dict ys => by simp [PValue.beq, PValue.beqPairs_iff xs ys]
  | .int _, .str _ => by simp [PValue.beq]
  | .int _, .bool _ => by simp [PValue.beq]
  | .int _, .none => by simp [PValue.beq]
  | .int _, .list _ => by simp [PValue.beq]
  | .int _, .tuple _ => by simp [PValue.beq]
  | .int _, .dict _ => by simp [PValue.beq]
  | .str _, .int _ => by simp [PValue.beq]
  | .str _, .bool _ => by simp [PValue.beq]
  | .str _, .none => by simp [PValue.beq]
  | .str _, .list _ => by simp [PValue.beq]
  | .str _, .tuple _ => by simp [PValue.beq]
  | .str _, .dict _ => by simp [PValue.beq]
  | .bool _, .int _ => by simp [PValue.beq]
  | .bool _, .str _ => by simp [PValue.beq]
  | .bool _, .none => by simp [PValue.beq]
  | .bool _, .list _ => by simp [PValue.beq]
  | .bool _, .tuple _ => by simp [PValue.beq]
  | .bool _, .dict _ => by simp [PValue.beq]
  | .none, .int _ => by simp [PValue.beq]
  | .none, .str _ => by simp [PValue.beq]
  | .none, .bool _ => by simp [PValue.beq]
  | .none, .list _ => by simp [PValue.beq]
  | .none, .tuple _ => by simp [PValue.beq]
  | .none, .dict _ => by simp [PValue.beq]
  | .list _, .int _ => by simp [PValue.beq]
  | .list _, .str _ => by simp [PValue.beq]
  | .list _, .bool _ => by simp [PValue.beq]
  | .list _, .none => by simp [PValue.beq]
  | .list _, .tuple _ => by simp [PValue.beq]
  | .list _, .dict _ => by simp [PValue.beq]
  | .tuple _, .int _ => by simp [PValue.beq]
  | .tuple _, .str _ => by simp [PValue.beq]
  | .tuple _, .bool _ => by simp [PValue.beq]
  | .tuple _, .none => by simp [PValue.beq]
  | .tuple _, .list _ => by simp [PValue.beq]
  | .tuple _, .dict _ => by simp [PValue.beq]
  | .dict _, .int _ => by simp [PValue.beq]
  | .dict _, .str _ => by simp [PValue.beq]
  | .dict _, .bool _ => by simp [PValue.beq]
  | .dict _, .none => by simp [PValue.beq]
  | .dict _, .list _ => by simp [PValue.beq]
  | .dict _, .tuple _ => by simp [PValue.beq]

theorem PValue.beqList_iff : ∀ xs ys : List PValue, PValue.beqList xs ys = true ↔ xs = ys
  | [], [] => by simp [PValue.beqList]
  | x :: xs, y :: ys => by
      simp [PValue.beqList, PValue.beq_iff x y, PValue.beqList_iff xs ys]
  | [], _ :: _ => by simp [PValue.beqList]
  | _ :: _, [] => by simp [PValue.beqList]

theorem PValue.beqPairs_iff :
    ∀ xs ys : List (PValue × PValue), PValue.beqPairs xs ys = true ↔ xs = ys
  | [], [] => by simp [PValue.beqPairs]
  | (k, v) :: xs, (k', v') :: ys => by
      simp [PValue.beqPairs, PValue.beq_iff k k', PValue.beq_iff v v',
        PValue.beqPairs_iff xs ys, and_assoc]
  | [], _ :: _ => by simp [PValue.beqPairs]
  | _ :: _, [] => by simp [PValue.beqPairs]

end

instance : DecidableEq PValue := fun a b => decidable_of_iff _ (PValue.beq_iff a b)

/-- The fixed enumeration of declared-type tags (`_str_to_dtype` keys in
`pyparam.py`), plus `noneType` for Python's `type(None)` which `type(value)`
can produce but which is absent from the tag map. -/
inductive PType where
  | int | str | float | tuple | list | dict | set | bool | noneType
  deriving DecidableEq, Repr

/-- `__name__` of the modelled Python type (used by `PyParam.to_dict`). -/
def PType.typeName : PType → String
  | .int => "int"
  | .str => "str"
  | .float => "float"
  | .tuple => "tuple"
  | .list => "list"
  | .dict => "dict"
  | .set => "set"
  | .bool => "bool"
  | .noneType => "NoneType"

/-- The `_str_to_dtype` mapping of `pyparam.py` (keys of the fixed tag
enumeration; `dict.get` returning `None` is `Option.none`). -/
def strToDtype : String → Option PType
  | "int" => some .int
  | "str" => some .str
  | "float" => some .float
  | "tuple" => some .tuple
  | "list" => some .list
  | "dict" => some .dict
  | "set" => some .set
  | "bool" => some .bool
  | _ => Option.none

/-- Python `type(value)` on the modelled value domain. -/
def pyTypeOf : PValue → PType
  | .int _ => .int
  | .str _ => .str
  | .bool _ => .bool
  | .none => .noneType
  | .list _ => .list
  | .tuple _ => .tuple
  | .dict _ => .dict

/-- Errors raised by the modelled Python code.  Python raises `ValueError`,
`TypeError`, `KeyError`, `NotImplementedError` or `FileNotFoundError` with
formatted messages; the embedding keeps the data the messages carry in
structured form (e.g. `keyNotFound` carries the known-key enumeration that
`replace_param`'s `ValueError` message interpolates). -/
inductive PyErr where
  | valueError (msg : String)
  | typeError (msg : String)
  | keyError (key : String)
  | keyNotFound (key : String) (known : List String)
  | notImplemented (msg : String)
  | versionSourceMissing
  | versionConfigMissing
  | versionMismatch (configVersion sourceVersion : PValue)
  | fileNotFound (msg : String)
  deriving DecidableEq, Repr

/-- Python truthiness (`bool(x)`) on the modelled value domain. -/
def pyTruthy : PValue → Bool
  | .int n => n != 0
  | .str s => s ≠ ""
  | .bool b => b
  | .none => false
  | .list xs => xs ≠ []
  | .tuple xs => xs ≠ []
  | .dict xs => xs ≠ []

/-- Python `str(x)` for scalar values (container reprs are outside the
modelled fragment and error). -/
def pyStrOf : PValue → Except PyErr PValue
  | .int n => .ok (.str (toString n))
  | .str s => .ok (.str s)
  | .bool b => .ok (.str (if b then "True" else "False"))
  | .none => .ok (.str "None")
  | v => .error (.typeError ("str() of container values is outside the modelled fragment: " ++ reprStr v))

/-- Insert/overwrite in a Python-dict modelled as an ordered association
list: assignment to an existing key keeps its position, a new key is
appended (CPython 3.7+ dict semantics, which `pyparams` relies on). -/
def pyDictSet {α : Type} [DecidableEq α] {β : Type} :
    List (α × β) → α → β → List (α × β)
  | [], k, v => [(k, v)]
  | (k', v') :: rest, k, v =>
      if k' = k then (k, v) :: rest else (k', v') :: pyDictSet rest k v

/-- Python `dict(iterable-of-pairs)` used by `coerce` for the `dict` tag
(keys compared structurally; the `bool`/`int` cross-equality of Python keys
never arises in the modelled fragment). -/
def pyDictOfPairs : List PValue → Except PyErr (List (PValue × PValue))
  | [] => .ok []
  | x :: xs => do
      let rest ← pyDictOfPairs xs
      match x with
      | .list [k, v] => .ok (pyDictSet' k v rest)
      | .tuple [k, v] => .ok (pyDictSet' k v rest)
      | _ => .error (.typeError "cannot convert dictionary update sequence element")
where
  /-- first-occurrence-wins ordering as in `dict(pairs)`: Python processes
  pairs left to right, but we recurse right-first, so insert at front when
  absent and overwrite in place when present; this matches left-to-right
  `d[k]=v` over an initially empty dict. -/
  pyDictSet' (k v : PValue) (d : List (PValue × PValue)) : List (PValue × PValue) :=
    if (d.lookup k).isSome then pyDictSet d k v else (k, v) :: d

/-- Calling the Python type named by tag `t` on value `v` (the coercion
`dtype(self.value)` in `PyParam.compile`).  `float` and `set` results are not
representable in `PValue` and error (documented modelling boundary; no claim
exercises them). -/
def coerce (t : PType) (v : PValue) : Except PyErr PValue :=
  match t, v with
  | .int, .int n => .ok (.int n)
  | .int, .bool b => .ok (.int (if b then 1 else 0))
  | .int, .str s =>
      match s.toInt? with
      | some n => .ok (.int n)
      | Option.none => .error (.valueError ("invalid literal for int(): " ++ s))
  | .int, _ => .error (.typeError "int() argument must be a string or a number")
  | .str, v => pyStrOf v
  | .bool, v => .ok (.bool (pyTruthy v))
  | .tuple, .list xs => .ok (.tuple xs)
  | .tuple, .tuple xs => .ok (.tuple xs)
  | .tuple, .str s => .ok (.tuple (s.data.map fun c => .str (String.mk [c])))
  | .tuple, .dict d => .ok (.tuple (d.map Prod.fst))
  | .tuple, _ => .error (.typeError "object is not iterable")
  | .list, .list xs => .ok (.list xs)
  | .list, .tuple xs => .ok (.list xs)
  | .list, .str s => .ok (.list (s.data.map fun c => .str (String.mk [c])))
  | .list, .dict d => .ok (.list (d.map Prod.fst))
  | .list, _ => .error (.typeError "object is not iterable")
  | .dict, .dict d => .ok (.dict d)
  | .dict, .list xs => do .ok (.dict (← pyDictOfPairs xs))
  | .dict, .tuple xs => do .ok (.dict (← pyDictOfPairs xs))
  | .dict, _ => .error (.typeError "object is not iterable")
  | .float, _ => .error (.typeError "float values are outside the modelled fragment")
  | .set, _ => .error (.typeError "set values are outside the modelled fragment")
  | .noneType, _ => .error (.typeError "NoneType takes no arguments")

/-- The Python `dtype` field of a `PyParam`: `None`, an actual type object,
or a string tag (as read from YAML or decoded from a bare `int` argument). -/
inductive DtypeF where
  | noneD
  | ty (t : PType)
  | strTag (s : String)
  deriving DecidableEq, Repr

/-- `PyParam` dataclass of `pyparam.py` (value, dtype, scope, desc). -/
structure PyParam where
  value : PValue
  dtype : DtypeF := .noneD
  scope : String := ""
  desc : String := ""
  deriving DecidableEq, Repr

/-- `PyParam.compile`: if `dtype` is `None`, infer it from `type(value)`;
if it is a string tag, look it up in `_str_to_dtype` (unknown tags raise
`ValueError`) and coerce the value through the type; otherwise return the
param unchanged. -/
def PyParam.compile (p : PyParam) : Except PyErr PyParam :=
  match p.dtype with
  | .noneD => .ok { p with dtype := .ty (pyTypeOf p.value) }
  | .strTag s =>
      match strToDtype s with
      | Option.none => .error (.valueError ("Unsupported PyParam dtype: " ++ s))
      | some t => do
          let v ← coerce t p.value
          .ok { p with dtype := .ty t, value := v }
  | .ty _ => .ok p

/-- Python `s.startswith(pre)` (stated on the character lists so that
concrete instances evaluate). -/
def strStartsWith (s pre : String) : Bool := pre.data.isPrefixOf s.data

/-- Python `s.endswith(suf)`. -/
def strEndsWith (s suf : String) : Bool := suf.data.isSuffixOf s.data

/-- `os.path.join(a, b)` for the two-argument uses in `pyparams`
(`NamedPyParam.full_name`, `PyParamModule.full_name`). -/
def osPathJoin (a b : String) : String :=
  if strStartsWith b "/" then b
  else if a = "" then b
  else if strEndsWith a "/" then a ++ b
  else a ++ "/" ++ b

/-- `NamedPyParam` dataclass: a `PyParam` paired with the assignment-target
name extracted from source. -/
structure NamedPyParam where
  name : String
  param : PyParam
  deriving DecidableEq, Repr

/-- `NamedPyParam.scope` property. -/
def NamedPyParam.scope (p : NamedPyParam) : String := p.param.scope

/-- `NamedPyParam.value` property. -/
def NamedPyParam.value (p : NamedPyParam) : PValue := p.param.value

/-- `NamedPyParam.full_name`: `os.path.join(scope, name)`. -/
def NamedPyParam.full_name (p : NamedPyParam) : String :=
  osPathJoin p.param.scope p.name

/-- `add_scope` of `pyparam_parser.py`: prepend `scope ++ "/"` to every
param's scope via `param_replace(scope=f"{scope}/{param.param.scope}")`. -/
def add_scope (scope : String) (config_params : List NamedPyParam) : List NamedPyParam :=
  config_params.map fun p =>
    { p with param := { p.param with scope := scope ++ "/" ++ p.param.scope } }

/-- The Python `ast` expression fragment that `pyparams` supports
(`ast_node_to_value` cases plus `Call`): `Num` is restricted to integer
literals (float literals are outside the modelled fragment).  `raw` models
the `ast.Module(body=string)` raw-code hack that `value_to_ast_node`
produces for `dtype == type`. -/
inductive PExpr where
  | num (n : Int)
  | str (s : String)
  | name (id : String)
  | nameConst (v : PValue)
  | tupleE (elts : List PExpr)
  | listE (elts : List PExpr)
  | dictE (pairs : List (PExpr × PExpr))
  | attribute (value : PExpr) (attr : String)
  | subscript (value : PExpr)
  | call (func : PExpr) (args : List PExpr) (keywords : List (String × PExpr))
  | raw (code : String)
  deriving Repr

/-- Left-to-right dict construction (`d[k] = v` over decoded pairs), as a
Python dict comprehension or repeated keyword assignment performs. -/
def buildPyDict (pairs : List (PValue × PValue)) : List (PValue × PValue) :=
  pairs.foldl (fun d kv => pyDictSet d kv.1 kv.2) []

mutual

/-- `ast_node_to_value` of `pyparam.py`: decode a supported AST node shape
into a runtime value.  `Name` decodes to its bare identifier string,
`Tuple` and `List` both decode to a Python list, `Attribute` decodes to a
dotted string, `Subscript` drops its index, `Call` decodes to a dict of
name/args/keywords, and any other shape raises `ValueError`. -/
def astNodeToValue : PExpr → Except PyErr PValue
  | .num n => .ok (.int n)
  | .str s => .ok (.str s)
  | .name id => .ok (.str id)
  | .nameConst v => .ok v
  | .tupleE elts => do .ok (.list (← astListToValues elts))
  | .listE elts => do .ok (.list (← astListToValues elts))
  | .attribute v attr => do
      match ← astNodeToValue v with
      | .str s => .ok (.str (s ++ "." ++ attr))
      | _ => .error (.typeError "can only concatenate str to str")
  | .subscript v => astNodeToValue v
  | .call f args kws => do
      let fv ← astNodeToValue f
      let argvs ← astListToValues args
      let kwvs ← astKeywordsToValues kws
      .ok (.dict [(.str "name", fv), (.str "args", .list argvs),
                  (.str "keywords", .list kwvs)])
  | .dictE pairs => do .ok (.dict (buildPyDict (← astPairsToValues pairs)))
  | .raw code => .error (.valueError ("Cannot parse AST node of type: Module " ++ code))

/-- Elementwise `ast_node_to_value` (a list comprehension propagating the
first exception). -/
def astListToValues : List PExpr → Except PyErr (List PValue)
  | [] => .ok []
  | e :: rest => do .ok ((← astNodeToValue e) :: (← astListToValues rest))

/-- `ast_node_to_value` on `ast.keyword` nodes: a pair of the argument name
and the decoded value (a Python 2-tuple). -/
def astKeywordsToValues : List (String × PExpr) → Except PyErr (List PValue)
  | [] => .ok []
  | (a, v) :: rest => do
      .ok (.tuple [.str a, ← astNodeToValue v] :: (← astKeywordsToValues rest))

/-- Pairwise decoding of an `ast.Dict` node's keys and values. -/
def astPairsToValues : List (PExpr × PExpr) → Except PyErr (List (PValue × PValue))
  | [] => .ok []
  | (k, v) :: rest => do
      .ok ((← astNodeToValue k, ← astNodeToValue v) :: (← astPairsToValues rest))

end

/-- The second argument of `value_to_ast_node`: an actual Python type from
the tag enumeration, the metaclass `type` (used by the raw-code hack), or a
non-type object (e.g. `None` or a string) that fails every `==` test. -/
inductive EncTy where
  | pt (t : PType)
  | typeMeta
  | nonET
  | objET (v : PValue)
  deriving DecidableEq, Repr

mutual

/-- `value_to_ast_node` of `pyparam.py`: encode a runtime value back into an
AST literal node according to the declared type; container elements recurse
with `type(element)` as their own declared type; an unrecognized declared
type raises `ValueError`.  Shape mismatches between `value` and `dtype`
(e.g. a non-int value under the `int` branch, which Python would embed as a
malformed `ast.Num`) are modelled as errors. -/
def valueToAstNode (value : PValue) (dtype : EncTy) : Except PyErr PExpr :=
  match dtype with
  | .pt .int =>
      match value with
      | .int n => .ok (.num n)
      | _ => .error (.typeError "malformed ast.Num is outside the modelled fragment")
  | .pt .float =>
      match value with
      | .int n => .ok (.num n)
      | _ => .error (.typeError "malformed ast.Num is outside the modelled fragment")
  | .pt .bool => .ok (.nameConst value)
  | .pt .str =>
      match value with
      | .str s => .ok (.str s)
      | _ => .error (.typeError "malformed ast.Str is outside the modelled fragment")
  | .pt .list =>
      match value with
      | .list xs => do .ok (.listE (← valuesToAstNodes xs))
      | .tuple xs => do .ok (.listE (← valuesToAstNodes xs))
      | _ => .error (.typeError "object is not iterable")
  | .pt .tuple =>
      match value with
      | .list xs => do .ok (.tupleE (← valuesToAstNodes xs))
      | .tuple xs => do .ok (.tupleE (← valuesToAstNodes xs))
      | _ => .error (.typeError "object is not iterable")
  | .pt .dict =>
      match value with
      | .dict d => do .ok (.dictE (← valuePairsToAstNodes d))
      | _ => .error (.typeError "object has no attribute keys")
  | .typeMeta =>
      match value with
      | .str s => .ok (.raw s)
      | _ => .error (.typeError "ast.Module of a non-string body is outside the modelled fragment")
  | _ =>
      .error (.valueError ("Cannot parse value: " ++ reprStr value ++ " with dtype to ast Node"))

/-- Elementwise `value_to_ast_node` with `type(e)` as each element's
declared type. -/
def valuesToAstNodes : List PValue → Except PyErr (List PExpr)
  | [] => .ok []
  | e :: rest => do
      .ok ((← valueToAstNode e (.pt (pyTypeOf e))) :: (← valuesToAstNodes rest))

/-- Keys and values of a dict value encoded elementwise. -/
def valuePairsToAstNodes : List (PValue × PValue) → Except PyErr (List (PExpr × PExpr))
  | [] => .ok []
  | (k, v) :: rest => do
      .ok ((← valueToAstNode k (.pt (pyTypeOf k)), ← valueToAstNode v (.pt (pyTypeOf v)))
            :: (← valuePairsToAstNodes rest))

end

/-- View of a `PyParam` dtype field as a `value_to_ast_node` second
argument. -/
def DtypeF.toEncTy : DtypeF → EncTy
  | .ty t => .pt t
  | .noneD => .nonET
  | .strTag s => .objET (.str s)

/-- `PyParam.to_ast_node`: `value_to_ast_node(self.value, self.dtype)`
(line/column bookkeeping is not modelled). -/
def PyParam.toAstNode (p : PyParam) : Except PyErr PExpr :=
  valueToAstNode p.value p.dtype.toEncTy

/-- `NamedPyParam.to_ast_node` delegates to the wrapped param. -/
def NamedPyParam.toAstNode (p : NamedPyParam) : Except PyErr PExpr :=
  p.param.toAstNode

/-- The Python statement fragment the scanner walks: annotated assignments,
plain assignments (targets restricted to bare names, as the scanner
requires), function definitions with positional defaults, class
definitions, bare expression statements, and a body-less `pass`. -/
inductive PStmt where
  | annAssign (target : String) ( annotation : PExpr) (value : Option PExpr)
  | assign (targets : List String) (value : PExpr)
  | funcDef (fname : String) (argNames : List String) (defaults : List PExpr)
      (body : List PStmt)
  | classDef (cname : String) (body : List PStmt)
  | exprStmt (value : PExpr)
  | passStmt
  deriving Repr

/-- A declaration site located by the scanner.  Python keys its
node-to-record maps by AST object identity; the embedding identifies a
site by the path of its value expression in the original tree — `nid.1` is
the statement path (indices into nested bodies), `nid.2` the inner path of
the value expression (indices into nested call keyword lists, or the
default slot index of a function definition).  Real assignment statements
have inner path `[]`; synthesized sites (function defaults, call keyword
arguments) share the identity of the expression object they wrap, exactly
as Python's synthetic `ast.Assign(targets=[Name(arg)], value=<shared
expression>)` does. -/
structure FoundNode where
  targets : List String
  isAnn : Bool
  value : PExpr
  nid : List Nat × List Nat
  deriving Repr

mutual

/-- The per-assignment part of `find_pyparams_assignments_nodes`: a located
assignment whose value is a call to a bare name equal to the marker is
collected; a call to any other bare name is recursed into through its
keyword arguments only (each keyword re-wrapped as a synthetic assignment,
sharing the keyword value's identity); everything else yields nothing. -/
def handleAssignValue (op : String) (targets : List String) (isAnn : Bool)
    (v : PExpr) (sp : List Nat) (ip : List Nat) : List FoundNode :=
  match v with
  | .call (.name fid) args kws =>
      if fid = op then [⟨targets, isAnn, .call (.name fid) args kws, (sp, ip)⟩]
      else handleKeywords op kws sp ip 0
  | _ => []

/-- Recursion over the keyword arguments of a non-marker call (the
synthetic `ast.Module(kwarg_nodes)` pass of the scanner). -/
def handleKeywords (op : String) (kws : List (String × PExpr))
    (sp : List Nat) (ip : List Nat) (k : Nat) : List FoundNode :=
  match kws with
  | [] => []
  | (a, kv) :: rest =>
      handleAssignValue op [a] false kv sp (ip ++ [k])
        ++ handleKeywords op rest sp ip (k + 1)

end

/-- `args.args[-len(defaults):]` zipped with `args.defaults` (the
default-valued trailing parameters of a function definition). -/
def alignDefaults (argNames : List String) (defaults : List PExpr) :
    List (String × PExpr) :=
  (argNames.drop (argNames.length - defaults.length)).zip defaults

mutual

/-- The per-element part of `find_pyparams_assignments_nodes` (see
`findPyparamsStmts`). -/
def findPyparamsStmt (op : String) (st : PStmt) (path : List Nat) :
    List FoundNode :=
  match st with
  | .funcDef _ argNames defaults body =>
      findPyparamsStmts op path body 0
        ++ ((alignDefaults argNames defaults).enum.flatMap
             fun ad => handleAssignValue op [ad.2.1] false ad.2.2 path [ad.1])
  | .classDef _ body => findPyparamsStmts op path body 0
  | .annAssign t _ (some v) => handleAssignValue op [t] true v path []
  | .assign ts v => handleAssignValue op ts false v path []
  | _ => []

/-- `find_pyparams_assignments_nodes` of `pyparam_parser.py`, walking a
statement list: for each element, first recurse into its body if it has
one (function and class definitions), then (for function definitions)
treat each default-valued parameter as a synthetic assignment of its
default expression, then handle `AnnAssign`/`Assign` statements through
`handleAssignValue`.  Order matches the source: body recursion results,
then default-parameter results, then the assignment itself. -/
def findPyparamsStmts (op : String) (base : List Nat) :
    List PStmt → Nat → List FoundNode
  | [], _ => []
  | st :: rest, i =>
      findPyparamsStmt op st (base ++ [i]) ++ findPyparamsStmts op base rest (i + 1)

end

/-- `parse_args_kwargs_from_node`: decode the call's positional arguments
and build the keyword dict (`keywords[keyword.arg] = decode(value)`). -/
def parseArgsKwargsFromNode (v : PExpr) :
    Except PyErr (List PValue × List (String × PValue)) :=
  match v with
  | .call _ args kws => do
      let argvs ← astListToValues args
      let kwvs ← kws.foldlM (fun d akv => do
          .ok (pyDictSet d akv.1 (← astNodeToValue akv.2))) []
      .ok (argvs, kwvs)
  | _ => .error (.typeError "node value has no args attribute")

/-- The decoded `dtype` argument as stored in the `PyParam` dataclass field:
`None` stays `None`, a decoded identifier/tag string is kept as a string;
any other object in the dtype slot is outside the modelled fragment. -/
def dtypeFieldOfValue : PValue → Except PyErr DtypeF
  | .none => .ok .noneD
  | .str s => .ok (.strTag s)
  | v => .error (.typeError ("non-string dtype argument is outside the modelled fragment: " ++ reprStr v))

/-- The Python call `PyParam(*args, **keywords)`: positional arguments fill
`value`, `dtype`, `scope`, `desc` in order, keyword arguments fill their
named field; surplus positionals, unknown keywords, a keyword repeating a
positional, and a missing `value` raise `TypeError`.  Non-string
`scope`/`desc` arguments are outside the modelled fragment. -/
def pyParamOfArgsKwargs (args : List PValue) (kwargs : List (String × PValue)) :
    Except PyErr PyParam := do
  if args.length > 4 then
    .error (.typeError "PyParam() takes at most 4 positional arguments")
  else
    let posValue := args.get? 0
    let posDtype := args.get? 1
    let posScope := args.get? 2
    let posDesc := args.get? 3
    let pick (fieldName : String) (pos : Option PValue) :
        Except PyErr (Option PValue) :=
      match pos, kwargs.lookup fieldName with
      | some _, some _ =>
          .error (.typeError ("PyParam() got multiple values for argument " ++ fieldName))
      | some v, Option.none => .ok (some v)
      | Option.none, some v => .ok (some v)
      | Option.none, Option.none => .ok Option.none
    if kwargs.any (fun akv => !(["value", "dtype", "scope", "desc"].contains akv.1)) then
      .error (.typeError "PyParam() got an unexpected keyword argument")
    else
      let valueArg ← pick "value" posValue
      let dtypeArg ← pick "dtype" posDtype
      let scopeArg ← pick "scope" posScope
      let descArg ← pick "desc" posDesc
      match valueArg with
      | Option.none => .error (.typeError "PyParam() missing required argument value")
      | some value => do
          let dtype ← match dtypeArg with
                      | Option.none => pure DtypeF.noneD
                      | some dv => dtypeFieldOfValue dv
          let scope ← match scopeArg with
                      | Option.none => pure ""
                      | some (.str s) => pure s
                      | some v => .error (.typeError ("non-string scope is outside the modelled fragment: " ++ reprStr v))
          let desc ← match descArg with
                     | Option.none => pure ""
                     | some (.str s) => pure s
                     | some v => .error (.typeError ("non-string desc is outside the modelled fragment: " ++ reprStr v))
          .ok { value := value, dtype := dtype, scope := scope, desc := desc }

/-- `PyParam.from_ast_node`: parse args/kwargs from the located call and
construct-then-compile the param. -/
def PyParam.fromAstNode (v : PExpr) : Except PyErr PyParam := do
  let (args, kwargs) ← parseArgsKwargsFromNode v
  let p ← pyParamOfArgsKwargs args kwargs
  p.compile

/-- `NamedPyParam.from_ast_node`: an `AnnAssign` contributes its single
target's name; an `Assign` with more than one target raises
`NotImplementedError`, otherwise its first target names the param. -/
def NamedPyParam.fromFoundNode (f : FoundNode) : Except PyErr NamedPyParam := do
  if f.isAnn then
    match f.targets with
    | [t] => do .ok ⟨t, ← PyParam.fromAstNode f.value⟩
    | _ => .error (.typeError "AnnAssign has exactly one target")
  else
    match f.targets with
    | [] => .error (.typeError "Assign with no targets")
    | t :: rest =>
        if rest ≠ [] then
          .error (.notImplemented "Node has more than one target.")
        else do
          .ok ⟨t, ← PyParam.fromAstNode f.value⟩

/-- `get_all_pyparams_from_source_code` (with `NamedPyParam` as the
parser): scan the tree and convert every located node. -/
def getAllPyparamsFromSource (op : String) (body : List PStmt) :
    Except PyErr (List NamedPyParam) :=
  (findPyparamsStmts op [] body 0).mapM NamedPyParam.fromFoundNode

/-- `get_source_params_assignments`: the `{full_name: node}` dict over the
located nodes (later duplicates overwrite in place, dict semantics). -/
def getSourceParamsAssignments (op : String) (body : List PStmt) :
    Except PyErr (List (String × FoundNode)) :=
  (findPyparamsStmts op [] body 0).foldlM
    (fun d f => do
      let p ← NamedPyParam.fromFoundNode f
      .ok (pyDictSet d p.full_name f))
    []

mutual

/-- Python `==` on the modelled value domain: `bool` and `int`
cross-compare numerically, lists and tuples compare pointwise but never to
each other, dicts compare by size and key-wise value equality
(order-insensitive). -/
def pyEqB : PValue → PValue → Bool
  | .int a, .int b => a == b
  | .bool a, .bool b => a == b
  | .int a, .bool b => a == (if b then (1 : Int) else 0)
  | .bool a, .int b => (if a then (1 : Int) else 0) == b
  | .str a, .str b => a == b
  | .none, .none => true
  | .list xs, .list ys => pyEqListB xs ys
  | .tuple xs, .tuple ys => pyEqListB xs ys
  | .dict xs, .dict ys => xs.length == ys.length && pyEqEntriesB xs ys
  | _, _ => false

/-- Pointwise Python `==` on sequences. -/
def pyEqListB : List PValue → List PValue → Bool
  | [], [] => true
  | x :: xs, y :: ys => pyEqB x y && pyEqListB xs ys
  | _, _ => false

/-- Every entry of the first dict has a `==`-equal key with `==`-equal
value in the second. -/
def pyEqEntriesB : List (PValue × PValue) → List (PValue × PValue) → Bool
  | [], _ => true
  | (k, v) :: rest, d2 => pyFindEqB k v d2 && pyEqEntriesB rest d2

/-- Scan a dict for an entry `==`-matching the given key and value. -/
def pyFindEqB (k v : PValue) : List (PValue × PValue) → Bool
  | [] => false
  | (k', v') :: rest => (pyEqB k k' && pyEqB v v') || pyFindEqB k v rest

end

mutual

/-- The first map entry whose identity matches the given keyword value
identity (the `n.value == keyword.value` identity comparison in
`visit_Assign`; after the first replacement the keyword holds a fresh
node, so at most one entry can match). -/
def transformKeywords (m : List ((List Nat × List Nat) × NamedPyParam))
    (sp : List Nat) : List (String × PExpr) → Nat →
    Except PyErr (List (String × PExpr))
  | [], _ => .ok []
  | (a, kv) :: rest, k => do
      let newV ← match m.find? (fun np => np.1 = (sp, [k])) with
                 | some np => np.2.toAstNode
                 | Option.none => .ok kv
      .ok ((a, newV) :: (← transformKeywords m sp rest (k + 1)))

/-- `get_default_compile_node_transformer`'s `DefaultASTTransformer`
applied over a statement list (Python's `NodeTransformer.visit`):
`AnnAssign`/`Assign` nodes in the map get their value replaced by
`params.to_ast_node(...)`; an unmapped `Assign` whose value is a call with
keyword arguments gets each keyword value replaced when its identity
matches a mapped node's value; a `FunctionDef` rebuilds its default list
keeping only defaults whose identity matches a mapped node's value
(unmatched defaults are dropped, as in the source), then recurses into its
body.  Other statements are left unchanged. -/
def transformStmt (m : List ((List Nat × List Nat) × NamedPyParam))
    (st : PStmt) (path : List Nat) : Except PyErr PStmt :=
  match st with
  | .annAssign t ann (some v) =>
      match m.lookup (path, ([] : List Nat)) with
      | some p => do .ok (PStmt.annAssign t ann (some (← p.toAstNode)))
      | Option.none => .ok (PStmt.annAssign t ann (some v))
  | .assign ts v =>
      match m.lookup (path, ([] : List Nat)) with
      | some p => do .ok (PStmt.assign ts (← p.toAstNode))
      | Option.none =>
          match v with
          | .call f args kws =>
              if kws.isEmpty then .ok (PStmt.assign ts (.call f args kws))
              else do
                .ok (PStmt.assign ts (.call f args (← transformKeywords m path kws 0)))
          | _ => .ok (PStmt.assign ts v)
  | .funcDef fn argNames defaults body => do
      let newDefaults ← (alignDefaults argNames defaults).enum.foldlM
        (fun acc jd => do
          let hits := m.filter (fun np => np.1 = (path, [jd.1]))
          let nodes ← hits.mapM (fun np => np.2.toAstNode)
          .ok (acc ++ nodes))
        []
      .ok (PStmt.funcDef fn argNames newDefaults
            (← transformStmts m path body 0))
  | .classDef c body => do
      .ok (PStmt.classDef c (← transformStmts m path body 0))
  | other => .ok other

/-- `get_default_compile_node_transformer`'s transformer applied over a
statement list (Python's `NodeTransformer.visit`). -/
def transformStmts (m : List ((List Nat × List Nat) × NamedPyParam))
    (base : List Nat) : List PStmt → Nat → Except PyErr (List PStmt)
  | [], _ => .ok []
  | st :: rest, i => do
      let st' ← transformStmt m st (base ++ [i])
      .ok (st' :: (← transformStmts m base rest (i + 1)))

end

mutual

/-- Modelled from the spec: the external renderer (`astor.to_source`) is
out of scope and only its token content for the supported literal subset
is specified; this renders the expression fragment with Python literal
syntax. -/
def renderExpr : PExpr → String
  | .num n => toString n
  | .str s => "'" ++ s ++ "'"
  | .name id => id
  | .nameConst (.bool true) => "True"
  | .nameConst (.bool false) => "False"
  | .nameConst _ => "None"
  | .tupleE [e] => "(" ++ renderExpr e ++ ",)"
  | .tupleE es => "(" ++ renderExprList es ++ ")"
  | .listE es => "[" ++ renderExprList es ++ "]"
  | .dictE ps => "\x7b" ++ renderExprPairs ps ++ "\x7d"
  | .attribute v a => renderExpr v ++ "." ++ a
  | .subscript v => renderExpr v
  | .call f args kws =>
      renderExpr f ++ "(" ++ renderCallArgs args kws ++ ")"
  | .raw code => code
termination_by e => sizeOf e

/-- Comma-separated rendering of expression lists. -/
def renderExprList : List PExpr → String
  | [] => ""
  | [e] => renderExpr e
  | e :: rest => renderExpr e ++ ", " ++ renderExprList rest
termination_by es => sizeOf es

/-- Comma-separated rendering of dict literal entries. -/
def renderExprPairs : List (PExpr × PExpr) → String
  | [] => ""
  | [(k, v)] => renderExpr k ++ ": " ++ renderExpr v
  | (k, v) :: rest => renderExpr k ++ ": " ++ renderExpr v ++ ", " ++ renderExprPairs rest
termination_by ps => sizeOf ps

/-- Keyword arguments of a call. -/
def renderKwArgs : List (String × PExpr) → String
  | [] => ""
  | [(a, v)] => a ++ "=" ++ renderExpr v
  | (a, v) :: rest => a ++ "=" ++ renderExpr v ++ ", " ++ renderKwArgs rest
termination_by kws => sizeOf kws

/-- Positional then keyword arguments of a call. -/
def renderCallArgs : List PExpr → List (String × PExpr) → String
  | [], kws => renderKwArgs kws
  | [e], [] => renderExpr e
  | [e], kws => renderExpr e ++ ", " ++ renderKwArgs kws
  | e :: rest, kws => renderExpr e ++ ", " ++ renderCallArgs rest kws
termination_by args kws => sizeOf args + sizeOf kws

end

/-- Function parameters with the trailing ones carrying their defaults. -/
def renderFnArgs (argNames : List String) (defaults : List PExpr) : String :=
  let plain := argNames.take (argNames.length - defaults.length)
  let dflt := (alignDefaults argNames defaults).map fun ad => ad.1 ++ "=" ++ renderExpr ad.2
  String.intercalate ", " (plain ++ dflt)

mutual

/-- Modelled from the spec: line rendering of the statement fragment by the
external renderer, with the engine's two-space `indent_with`
(`COMPILED_SOURCE_INDENTATION`). -/
def renderStmtLines (ind : String) : PStmt → List String
  | .annAssign t ann v =>
      [ind ++ t ++ ": " ++ renderExpr ann ++
        (match v with | some v => " = " ++ renderExpr v | Option.none => "")]
  | .assign ts v => [ind ++ String.intercalate " = " ts ++ " = " ++ renderExpr v]
  | .funcDef fn argNames defaults body =>
      (ind ++ "def " ++ fn ++ "(" ++ renderFnArgs argNames defaults ++ "):")
        :: renderBodyLines (ind ++ "  ") body
  | .classDef c body =>
      (ind ++ "class " ++ c ++ ":") :: renderBodyLines (ind ++ "  ") body
  | .exprStmt v => [ind ++ renderExpr v]
  | .passStmt => [ind ++ "pass"]

/-- Line rendering of a statement list. -/
def renderBodyLines (ind : String) : List PStmt → List String
  | [] => []
  | st :: rest => renderStmtLines ind st ++ renderBodyLines ind rest

end

/-- A rendered module: newline-joined lines with a trailing newline. -/
def renderModule (body : List PStmt) : String :=
  String.intercalate "\n" (renderBodyLines "" body) ++ "\n"

/-- `VERSION_PARAM_KEY_NAME`. -/
def versionParamKeyName : String := "version"

/-- The `node_to_config_param` construction inside
`compile_source_code_from_configs_list`: each config param's located node
keyed by identity (a full_name absent from the source raises `KeyError`,
as the Python dict indexing does). -/
def nodeToConfigParamMap (named_nodes : List (String × FoundNode))
    (config_params : List NamedPyParam) :
    Except PyErr (List ((List Nat × List Nat) × NamedPyParam)) :=
  config_params.foldlM
    (fun d p =>
      match named_nodes.lookup p.full_name with
      | some f => .ok (pyDictSet d f.nid p)
      | Option.none => .error (.keyError p.full_name))
    []

/-- The `validate_version` block of
`compile_source_code_from_configs_list`: the source must hold a located
node with full_name `"version"`, the config list must hold a param *named*
`"version"` (note: by bare name, not full_name), and the config value
(the `{param.name: param.value}` dict's entry, i.e. the last param so
named) must Python-equal the value re-extracted from the source's version
node. -/
def validateVersionCheck (named_nodes : List (String × FoundNode))
    (config_params : List NamedPyParam) : Except PyErr Unit :=
  match named_nodes.lookup versionParamKeyName with
  | Option.none => .error .versionSourceMissing
  | some versionNode =>
    if ¬ config_params.any (fun p => p.name = versionParamKeyName) then
      .error .versionConfigMissing
    else
      match (config_params.foldl (fun d p => pyDictSet d p.name p.value) []).lookup
          versionParamKeyName with
      | Option.none => .error .versionConfigMissing
      | some config_version => do
        let sourceParam ← NamedPyParam.fromFoundNode versionNode
        let source_code_version := sourceParam.param.value
        if ¬ (pyEqB config_version source_code_version) then
          .error (.versionMismatch config_version source_code_version)
        else .ok ()

/-- `compile_source_code_from_configs_list` of `pyparam_parser.py` with the
default node transformer: locate the named assignment nodes, build the
node-to-record map, optionally validate the designated `"version"`
parameter, then transform the tree and re-render it. -/
def compileSourceCodeFromConfigsList (body : List PStmt)
    (config_params : List NamedPyParam) (op : String := "PyParam")
    (validate_version : Bool := false) : Except PyErr String := do
  let named_nodes ← getSourceParamsAssignments op body
  let m ← nodeToConfigParamMap named_nodes config_params
  if validate_version then do
    let _ ← validateVersionCheck named_nodes config_params
    let newBody ← transformStmts m [] body 0
    .ok (renderModule newBody)
  else do
    let newBody ← transformStmts m [] body 0
    .ok (renderModule newBody)

/-- The `{full_name: param}` dict both `replace_param` and `get_param`
build over the config list. -/
def configParamsFullNameDict (config_params : List NamedPyParam) :
    List (String × NamedPyParam) :=
  config_params.foldl (fun d p => pyDictSet d p.full_name p) []

/-- `replace_param` of `pyparam_parser.py`: build the `{full_name: param}`
dict of the (deep-copied) list; an absent key raises `ValueError`
enumerating the known keys in strict mode and returns the input list
unchanged in permissive mode (the printed skip notice is a no-op here); a
present key has its record replaced wholesale in the dict — unless the key
is exactly `"version"`, which the source skips silently — and the dict's
values are returned in order. -/
def replace_param (param : NamedPyParam) (config_params : List NamedPyParam)
    (ignore_missing_keys : Bool := false) : Except PyErr (List NamedPyParam) :=
  let config_params_dict := configParamsFullNameDict config_params
  if (config_params_dict.lookup param.full_name).isNone then
    if ¬ ignore_missing_keys then
      .error (.keyNotFound param.full_name (config_params_dict.map Prod.fst))
    else
      .ok config_params
  else
    if param.full_name ≠ versionParamKeyName then
      .ok ((pyDictSet config_params_dict param.full_name param).map Prod.snd)
    else
      .ok (config_params_dict.map Prod.snd)

/-- `replace_params`: fold `replace_param` over the replacement list. -/
def replace_params (params_to_replace : List NamedPyParam)
    (config_params : List NamedPyParam) (ignore_missing_keys : Bool := false) :
    Except PyErr (List NamedPyParam) :=
  params_to_replace.foldlM
    (fun cfg p => replace_param p cfg ignore_missing_keys) config_params

/-- `get_param`: exact full_name lookup raising `ValueError` (with the
known-key enumeration) when absent. -/
def get_param (full_name : String) (config_params : List NamedPyParam) :
    Except PyErr NamedPyParam :=
  let config_params_dict := configParamsFullNameDict config_params
  match config_params_dict.lookup full_name with
  | some p => .ok p
  | Option.none => .error (.keyNotFound full_name (config_params_dict.map Prod.fst))

/-- Python substring membership `sub in s` on character lists. -/
def strInChars (pat : List Char) : List Char → Bool
  | [] => pat.isEmpty
  | c :: rest => pat.isPrefixOf (c :: rest) || strInChars pat rest

/-- Python substring membership `sub in s`. -/
def strIn (sub s : String) : Bool := strInChars sub.data s.data

/-- Python `str.split("/")` on character lists: split at every separator,
keeping empty pieces. -/
def splitChars (sep : Char) : List Char → List (List Char)
  | [] => [[]]
  | c :: cs =>
      if c = sep then [] :: splitChars sep cs
      else
        match splitChars sep cs with
        | t :: ts => (c :: t) :: ts
        | [] => [[c]]

/-- Python `s.split("/")`. -/
def pySplit (s : String) : List String :=
  (splitChars '/' s.data).map fun l => String.mk l

/-- Python `"/".join(xs)`. -/
def joinSegs (xs : List String) : String := String.intercalate "/" xs

/-- A YAML document-tree value: either a scalar/container parameter value
(Python object stored under `value`/`dtype`/`desc`) or a nested ordered
dictionary.  Python does not distinguish the two statically — everything
is a dict — but in the trees this program builds, non-dict objects appear
only under the reserved leaf keys, which is what the split enforces. -/
inductive YVal where
  | prim (v : PValue)
  | node (entries : List (String × YVal))
  deriving Repr

/-- A document tree: an ordered dictionary from path segments (or reserved
leaf keys) to values. -/
abbrev YTree := List (String × YVal)

/-- `PyParam.to_dict` (through `NamedPyParam.to_dict`): `dtype.__name__`
and the value, plus `desc` when non-empty.  A dtype field that is not an
actual type has no `__name__` and errors. -/
def NamedPyParam.toDictY (p : NamedPyParam) : Except PyErr YTree :=
  match p.param.dtype with
  | .ty t =>
      .ok ([("dtype", .prim (.str t.typeName)), ("value", .prim p.param.value)]
        ++ (if p.param.desc.length ≠ 0 then [("desc", .prim (.str p.param.desc))] else []))
  | _ => .error (.typeError "dtype field has no attribute __name__")

/-- `insert_node` of `params_to_yaml_config`, on the segment list that
Python recomputes by splitting: with more than one segment, ensure the
head key maps to a dict and recurse on the joined tail (splitting the
rejoined tail yields the tail again, since split pieces contain no
separator); with one non-empty segment, ensure it maps to a dict and file
the param's record there under its name; with one empty segment, file the
record at this level.  Indexing a non-dict raises `TypeError`. -/
def insertNodeSegs (param : NamedPyParam) : List String → YTree → Except PyErr YTree
  | head :: tail₁ :: tailRest, config =>
      let tail := tail₁ :: tailRest
      let config' := if (config.lookup head).isSome then config
                     else pyDictSet config head (.node [])
      match config'.lookup head with
      | some (.node sub) => do
          let sub' ← insertNodeSegs param tail sub
          .ok (pyDictSet config' head (.node sub'))
      | some (.prim _) => .error (.typeError "membership test on a non-dict is outside the modelled fragment")
      | Option.none => .error (.typeError "unreachable: head was just ensured")
  | [sc], config =>
      if sc.length > 0 then
        let config' := if (config.lookup sc).isSome then config
                       else pyDictSet config sc (.node [])
        match config'.lookup sc with
        | some (.node sub) => do
            let d ← param.toDictY
            .ok (pyDictSet config' sc (.node (pyDictSet sub param.name (.node d))))
        | some (.prim _) => .error (.typeError "item assignment on a non-dict is outside the modelled fragment")
        | Option.none => .error (.typeError "unreachable: key was just ensured")
      else do
        let d ← param.toDictY
        .ok (pyDictSet config param.name (.node d))
  | [], _ => .error (.typeError "unreachable: str.split never returns an empty list")

/-- The document-tree construction of `params_to_yaml_config`: build the
`{full_name: param}` dict, then insert every record at the scope obtained
by dropping the last path segment of its key (the YAML file write around
it is I/O and not modelled). -/
def paramsToYamlTree (config_params : List NamedPyParam) : Except PyErr YTree := do
  let config_params_dict :=
    config_params.foldl (fun d p => pyDictSet d p.full_name p) []
  config_params_dict.foldlM
    (fun tree kv =>
      let head := joinSegs ((pySplit kv.1).dropLast)
      insertNodeSegs kv.2 (pySplit head) tree)
    []

/-- `_is_end_node`: the node carries both a `value` and a `dtype` key. -/
def isEndNodeY (sub : YTree) : Bool :=
  (sub.lookup "value").isSome && (sub.lookup "dtype").isSome

/-- The `value`/`dtype`/`desc` slots of an end node as Python values;
a nested dict in such a slot only arises in degenerate trees (a scope
segment named like a reserved key) and is outside the modelled fragment. -/
def pyValueOfY : YVal → Except PyErr PValue
  | .prim v => .ok v
  | .node _ => .error (.typeError "tree-as-value is outside the modelled fragment")

/-- `NamedPyParam.from_dict(name, node)` as invoked by
`read_params_from_config`: set `node["scope"]`, splat the dict into
`PyParam(**node)` (unexpected keys raise `TypeError`) and compile. -/
def namedPyParamFromYDict (name : String) (sub : YTree) (scope : String) :
    Except PyErr NamedPyParam := do
  let sub := pyDictSet sub "scope" (.prim (.str scope))
  if sub.any (fun kv => !(["value", "dtype", "scope", "desc"].contains kv.1)) then
    .error (.typeError "PyParam() got an unexpected keyword argument")
  else
    match sub.lookup "value" with
    | Option.none => .error (.typeError "PyParam() missing required argument value")
    | some yv => do
        let value ← pyValueOfY yv
        let dtype ← match sub.lookup "dtype" with
                    | Option.none => pure DtypeF.noneD
                    | some (.prim dv) => dtypeFieldOfValue dv
                    | some (.node _) => .error (.typeError "tree-as-dtype is outside the modelled fragment")
        let scopeV ← match sub.lookup "scope" with
                     | some (.prim (.str s)) => pure s
                     | _ => .error (.typeError "non-string scope is outside the modelled fragment")
        let desc ← match sub.lookup "desc" with
                   | Option.none => pure ""
                   | some (.prim (.str s)) => pure s
                   | _ => .error (.typeError "non-string desc is outside the modelled fragment")
        let p ← PyParam.compile { value := value, dtype := dtype, scope := scopeV, desc := desc }
        .ok ⟨name, p⟩

mutual

/-- `read_params_from_config`: walk the ordered tree; an end node becomes a
param whose scope is the accumulated root name without its leading empty
segment, any other dict recurses with the root name extended by
`"/".join([root, name])`; iterating a non-dict raises. -/
def readParamsFromConfig : YTree → String → Except PyErr (List NamedPyParam)
  | [], _ => .ok []
  | (name, yv) :: rest, rootName => do
      let here ← readParamsEntry name yv rootName
      .ok (here ++ (← readParamsFromConfig rest rootName))

/-- One entry of the tree walk of `read_params_from_config` (see
`readParamsFromConfig`). -/
def readParamsEntry (name : String) (yv : YVal) (rootName : String) :
    Except PyErr (List NamedPyParam) :=
  match yv with
  | .node sub =>
      if isEndNodeY sub then do
        let scope := joinSegs ((pySplit rootName).drop 1)
        .ok [← namedPyParamFromYDict name sub scope]
      else readParamsFromConfig sub (joinSegs [rootName, name])
  | .prim _ => .error (.typeError "membership test on a non-dict node is outside the modelled fragment")

end

mutual

/-- `find_function_def_nodes` of `pyparam_parser.py`: collect `FunctionDef`
statements from a body, recursing into each function's own body (and only
there — class bodies are not entered, since only `FunctionDef` elements
are recursed into). -/
def findFunctionDefNodes : List PStmt → List PStmt
  | [] => []
  | st :: rest => findFunctionDefStmt st ++ findFunctionDefNodes rest

/-- One element of the `find_function_def_nodes` walk: a `FunctionDef`
contributes itself followed by the collection over its body. -/
def findFunctionDefStmt : PStmt → List PStmt
  | .funcDef fn args ds body =>
      PStmt.funcDef fn args ds body :: findFunctionDefNodes body
  | _ => []

end

/-- The `name` attribute of a collected `FunctionDef` node. -/
def PStmt.defName : PStmt → String
  | .funcDef fn _ _ _ => fn
  | _ => ""

/-- `PyParamModule.value`: the synthesized container constructor
expression. -/
def pyParamModuleValue (name : String) : String :=
  "_pyparam_module__" ++ name ++ "()"

/-- `PyParamModule.encapsulate_source_with_class` of `module.py`: parse the
unit for function definitions, wrap its text lines one class and one
initializer deep (two-space indentation twice), and append a forwarding
binding `self.f = f` for every collected function whose name does not
start with an underscore.  The unit is given both as its statement list
(standing for `ast.parse(module_source)`) and as its text lines (standing
for `module_source.split("\n")`). -/
def encapsulateSourceWithClass (name : String) (stmts : List PStmt)
    (srcLines : List String) : List String :=
  let nodes := findFunctionDefNodes stmts
  let defined_functions := nodes.map PStmt.defName
  let ind := "  "
  let header := ["class " ++ pyParamModuleValue name ++ ":", ind ++ "def __init__(self):"]
  let bodyL := srcLines.map fun l => ind ++ ind ++ l
  let bindings := (defined_functions.filter fun fn => ¬ strStartsWith fn "_").map
      fun fn => ind ++ ind ++ "self." ++ fn ++ " = " ++ fn
  header ++ bodyL ++ bindings

/-- The forwarding-binding names that `encapsulate_source_with_class`
generates for a unit (the loop over `defined_functions` with the
underscore filter). -/
def encapsulationBindingNames (stmts : List PStmt) : List String :=
  ((findFunctionDefNodes stmts).map PStmt.defName).filter fun fn => ¬ strStartsWith fn "_"

/-- A delimiter of the `re.split("[()\\s]+", ...)` token split in
`derive_module`: parentheses and Python `\s` whitespace. -/
def isDelimPW (c : Char) : Bool :=
  c = '(' || c = ')' || c = ' ' || c = '\t' || c = '\n' || c = '\r' ||
    c = '\x0c' || c = '\x0b'

/-- `re.split("[()\\s]+", s)` on character lists: pieces between maximal
delimiter runs, with an empty piece at either end when the text starts or
ends with a delimiter. -/
def reSplitPWAux : List Char → List (List Char)
  | [] => [[]]
  | c :: cs =>
      let rest := reSplitPWAux cs
      if isDelimPW c then
        match cs with
        | c₂ :: _ => if isDelimPW c₂ then rest else [] :: rest
        | [] => [] :: rest
      else
        match rest with
        | t :: ts => (c :: t) :: ts
        | [] => [[c]]

/-- `re.split("[()\\s]+", s)`. -/
def reSplitPW (s : String) : List String :=
  (reSplitPWAux s.data).map fun l => String.mk l

/-- `DeriveModule.__name__`. -/
def deriveModuleName : String := "DeriveModule"

/-- The derive-directive guard of `derive_module` (`modules_parser.py`):
a source without any textual occurrence of the marker is returned
unchanged (`false`: no derive); a token count different from one (tokens
split on parentheses and whitespace) raises `ValueError`; otherwise the
derive proceeds (`true`).  The remaining derive machinery (module-name
parse, file-system resolution, include substitution) is beyond the guard
this models. -/
def deriveModuleGuard (source_code : String) : Except PyErr Bool :=
  if ¬ strIn deriveModuleName source_code then .ok false
  else if (reSplitPW source_code).count deriveModuleName ≠ 1 then
    .error (.valueError "DeriveModule can be used only once in the code")
  else .ok true

/-- `IncludeSource.__name__`. -/
def includeSourceName : String := "IncludeSource"

mutual

/-- `find_ast_expr_nodes`: expression statements anywhere in the tree
(recursing into function bodies) whose value is a call whose decoded
callee equals the directive name; decoding failures propagate as in the
source. -/
def findAstExprNodes (op : String) : List PStmt → Except PyErr (List PStmt)
  | [] => .ok []
  | st :: rest => do
      let here ← findAstExprStmt op st
      .ok (here ++ (← findAstExprNodes op rest))

/-- One element of the `find_ast_expr_nodes` walk. -/
def findAstExprStmt (op : String) : PStmt → Except PyErr (List PStmt)
  | .funcDef _ _ _ body => findAstExprNodes op body
  | .exprStmt (.call f args kws) => do
      if (← astNodeToValue f) = .str op then
        pure [PStmt.exprStmt (.call f args kws)]
      else pure []
  | _ => pure []

end

/-- The include path of a decoded include directive: the first positional
argument if any, else the first keyword's value (`expr_data["args"][0]` /
`expr_data["keywords"][0][1]`); it must decode to a string. -/
def includePathOfDirective (v : PExpr) : Except PyErr String :=
  match v with
  | .call _ (a :: _) _ => do
      match ← astNodeToValue a with
      | .str p => .ok p
      | _ => .error (.typeError "non-string include path is outside the modelled fragment")
  | .call _ [] ((_, kv) :: _) => do
      match ← astNodeToValue kv with
      | .str p => .ok p
      | _ => .error (.typeError "non-string include path is outside the modelled fragment")
  | _ => .error (.keyError "args")

/-- Modelled from the spec: the banner block `render_include_source_code`
emits before a spliced unit, as a statement-level docstring. -/
def includeHeaderStmts (path : String) : List PStmt :=
  [.exprStmt (.str ("PyParams: auto include source of " ++ path))]

/-- Modelled from the spec: the banner block emitted after a spliced
unit. -/
def includeFooterStmts (path : String) : List PStmt :=
  [.exprStmt (.str ("INCLUDE END OF " ++ path))]

mutual

/-- The one-line splice of `include_source_from_nodes`: replace the first
(textually first, i.e. depth-first) include-directive statement carrying
the given path by the replacement statements.  The flag reports whether a
replacement happened. -/
def spliceFirstDirective (op path : String) (ins : List PStmt) :
    List PStmt → Bool × List PStmt
  | [] => (false, [])
  | st :: rest =>
      let (found, sts) := spliceDirectiveStmt op path ins st
      if found then (true, sts ++ rest)
      else
        let (found', rest') := spliceFirstDirective op path ins rest
        (found', st :: rest')

/-- One element of the splice walk: a matching directive statement is
replaced by the insertion block; a function definition is searched inside
its body first; anything else stays. -/
def spliceDirectiveStmt (op path : String) (ins : List PStmt) :
    PStmt → Bool × List PStmt
  | .exprStmt (.call (.name f) args kws) =>
      let hit := f = op &&
        (match includePathOfDirective (.call (.name f) args kws) with
         | .ok p => p = path
         | .error _ => false)
      if hit then (true, ins) else (false, [PStmt.exprStmt (.call (.name f) args kws)])
  | .funcDef fn a d body =>
      let (found, body') := spliceFirstDirective op path ins body
      (found, [PStmt.funcDef fn a d body'])
  | other => (false, [other])

end

/-- `include_source_from_nodes` of `modules_parser.py`, at statement level
with fuel: scan for `IncludeSource` directives; when one exists, resolve
its path through the search environment (standing for
`find_module_source`), splice the banner-wrapped unit in place of the
one-line directive, and recurse until no directive remains.  The two
decorator-comment pre-passes are textual and are the identity on sources
without decorator comments, which statement-level sources never carry.
`Option.none` means the fuel ran out with the recursion still going —
the source has no cycle guard. -/
def includeSourceFromNodes (env : String → Except PyErr (List PStmt)) :
    Nat → List PStmt → Option (Except PyErr (List PStmt))
  | 0, _ => Option.none
  | fuel + 1, source =>
      match findAstExprNodes includeSourceName source with
      | .error e => some (.error e)
      | .ok [] => some (.ok source)
      | .ok (node :: _) =>
          match node with
          | .exprStmt v =>
              match includePathOfDirective v with
              | .error e => some (.error e)
              | .ok include_path =>
                  match env include_path with
                  | .error e => some (.error e)
                  | .ok include_stmts =>
                      let ins := includeHeaderStmts include_path ++ include_stmts
                                  ++ includeFooterStmts include_path
                      let spliced := (spliceFirstDirective includeSourceName
                                        include_path ins source).2
                      includeSourceFromNodes env fuel spliced
          | _ => some (.error (.typeError "unreachable: directives are expression statements"))

/-- Substring containment of the rendered output (`sub` occurs in `s`). -/
def strContains (s sub : String) : Prop := ∃ a b, s = a ++ sub ++ b

/-- The version-related members of the error taxonomy (the spec's
`VersionMismatch` family). -/
def PyErr.isVersionErr : PyErr → Bool
  | .versionSourceMissing => true
  | .versionConfigMissing => true
  | .versionMismatch _ _ => true
  | _ => false

/-- The projection the round-trip claim compares parameters by:
full_name, value, declared type and description. -/
def paramKey4 (p : NamedPyParam) : String × PValue × DtypeF × String :=
  (p.full_name, p.param.value, p.param.dtype, p.param.desc)

/-- The reserved keys of an end node in the document tree. -/
def reservedLeafKeys : List String := ["value", "dtype", "desc", "scope"]

/-- Well-formedness of one extracted parameter for the round trip: a
resolved declared type consistent with the value and serializable
(`noneType` has no tag), a non-empty slash-free name, and a full_name
whose path segments are non-empty and avoid the reserved leaf keys. -/
def WfParamC1 (p : NamedPyParam) : Prop :=
  p.param.dtype = .ty (pyTypeOf p.param.value)
  ∧ pyTypeOf p.param.value ≠ .noneType
  ∧ p.name ≠ "" ∧ '/' ∉ p.name.data
  ∧ ∀ s ∈ pySplit p.full_name, s ≠ "" ∧ s ∉ reservedLeafKeys

/-- No parameter's full path is an ancestor scope of another parameter's
path (which would make a document key both a terminal parameter and a
scope node). -/
def NoShadowC1 (l : List NamedPyParam) : Prop :=
  ∀ p ∈ l, ∀ q ∈ l,
    ¬ (pySplit p.full_name <+: (pySplit q.full_name).dropLast)

/-- The literal-compile example unit:
`start_index: int = PyParam(1, scope="loop", desc="summation start index")`
and `max_iters: int = PyParam(6, int, "loop", "max number of iterations")`. -/
def c2Unit : List PStmt := [
  .annAssign "start_index" (.name "int")
    (some (.call (.name "PyParam") [.num 1]
      [("scope", .str "loop"), ("desc", .str "summation start index")])),
  .annAssign "max_iters" (.name "int")
    (some (.call (.name "PyParam")
      [.num 6, .name "int", .str "loop", .str "max number of iterations"] []))]

/-- A unit whose three parameter declarations interleave a root-scope
parameter between two `"a"`-scoped ones:
`x: int = PyParam(1, scope="a")`, `y: int = PyParam(2)`,
`z: int = PyParam(3, scope="a")`. -/
def c1Unit : List PStmt := [
  .annAssign "x" (.name "int")
    (some (.call (.name "PyParam") [.num 1] [("scope", .str "a")])),
  .annAssign "y" (.name "int")
    (some (.call (.name "PyParam") [.num 2] [])),
  .annAssign "z" (.name "int")
    (some (.call (.name "PyParam") [.num 3] [("scope", .str "a")]))]

mutual

/-- Whether `fname` names a function defined somewhere in a statement
list, descending only through function bodies (the reach of
`find_function_def_nodes`, stated independently as the claim reads: top
level or nested inside functions, but not class bodies). -/
def FnDefReachable (fname : String) : List PStmt → Prop
  | [] => False
  | st :: rest => FnDefInStmt fname st ∨ FnDefReachable fname rest

/-- Whether `fname` names the function defined by this statement or one
nested in its body. -/
def FnDefInStmt (fname : String) : PStmt → Prop
  | .funcDef fn _ _ body => fn = fname ∨ FnDefReachable fname body
  | _ => False

end

/-- Whether `fname` names a function defined at the top level of the
statement list. -/
def isTopLevelFnName (stmts : List PStmt) (fname : String) : Bool :=
  stmts.any fun st =>
    match st with
    | .funcDef fn _ _ _ => fn = fname
    | _ => false

/-- A unit defining a public function `f` containing a nested public
function `g`, plus a top-level underscore function `_h`. -/
def c6Unit : List PStmt :=
  [.funcDef "f" [] [] [.funcDef "g" [] [] [.passStmt]],
   .funcDef "_h" [] [] [.passStmt]]

/-- A source text carrying the derive marker twice as a substring — once
as the directive call and once embedded in the longer identifier
`xDeriveModule` — but only once as a standalone token. -/
def c7Source : String := "DeriveModule(\x22m\x22)\nxDeriveModule = 1\n"

/-- An existing config entry whose full_name is the designated version
key. -/
def versionOldParam : NamedPyParam :=
  ⟨"version", { value := .int 1, dtype := .ty .int }⟩

/-- A replacement record for the same version key with a different
value. -/
def versionNewParam : NamedPyParam :=
  ⟨"version", { value := .int 2, dtype := .ty .int }⟩

/-- An `IncludeSource("path")` directive statement. -/
def includeDirStmt (p : String) : PStmt :=
  .exprStmt (.call (.name includeSourceName) [.str p] [])

/-- A search environment with two units forming an inclusion cycle: unit
`unitA` includes `unitB` and unit `unitB` includes `unitA`. -/
def cyclicSearchEnv : String → Except PyErr (List PStmt) := fun p =>
  if p = "unitA" then .ok [includeDirStmt "unitB"]
  else if p = "unitB" then .ok [includeDirStmt "unitA"]
  else .error (.fileNotFound p)

/-- A banner statement (a bare string expression), as the splice wraps
around included units. -/
def IsBannerStmt (st : PStmt) : Prop := ∃ s, st = PStmt.exprStmt (.str s)

/-- A unit declaring a designated `version` parameter and one ordinary
parameter. -/
def c9Unit : List PStmt := [
  .annAssign "version" (.name "int")
    (some (.call (.name "PyParam") [.num 3] [])),
  .annAssign "x" (.name "int")
    (some (.call (.name "PyParam") [.num 1] []))]

mutual

/-- The terminal parameter entries of a document (sub)tree value, each with
its full segment path (ending in its leaf key) and its record dict.  A
node is terminal exactly when `_is_end_node` holds of it. -/
def leavesOfVal (k : String) : YVal → List (List String × YTree)
  | .prim _ => []
  | .node sub =>
      if isEndNodeY sub then [([k], sub)]
      else (leavesOfTree sub).map fun pd => (k :: pd.1, pd.2)

/-- The terminal parameter entries of a document tree. -/
def leavesOfTree : YTree → List (List String × YTree)
  | [] => []
  | (k, v) :: rest => leavesOfVal k v ++ leavesOfTree rest

end

/-- A key acceptable as a path segment of the document tree: non-empty,
not one of the reserved leaf keys, and free of the path separator. -/
def GoodKey (k : String) : Prop :=
  k ≠ "" ∧ k ∉ reservedLeafKeys ∧ '/' ∉ k.data

/-- The `dtype.__name__` stored by `to_dict` (only resolved types occur in
well-formed records). -/
def dtypeNameOf : DtypeF → String
  | .ty t => t.typeName
  | _ => ""

/-- The record dict `to_dict` produces for a parameter. -/
def leafDictOf (p : NamedPyParam) : YTree :=
  [("dtype", .prim (.str (dtypeNameOf p.param.dtype))),
   ("value", .prim p.param.value)]
    ++ (if p.param.desc.length ≠ 0 then [("desc", .prim (.str p.param.desc))]
        else [])

/-- The leaf (segment path paired with record dict) a parameter contributes
to the document tree. -/
def leafFor (p : NamedPyParam) : List String × YTree :=
  (pySplit p.full_name, leafDictOf p)

/-- A well-formed terminal record dict: exactly the `to_dict` shape, with
a value whose runtime type matches the stored tag. -/
def WfLeafDict (d : YTree) : Prop :=
  ∃ (t : PType) (v : PValue) (desc : String),
    d = [("dtype", .prim (.str t.typeName)), ("value", .prim v)]
          ++ (if desc.length ≠ 0 then [("desc", .prim (.str desc))] else [])
    ∧ pyTypeOf v = t ∧ t ≠ .noneType

/-- Cleanliness of one document-tree entry: either a well-formed terminal
record under a good key, or a scope node with clean entries, unique keys,
no accidental `value`/`dtype` pair, and at least one terminal entry
below. -/
inductive CleanEntry : String × YVal → Prop
  | leaf (k : String) (d : YTree) :
      GoodKey k → WfLeafDict d → CleanEntry (k, .node d)
  | sub (k : String) (d : YTree) :
      GoodKey k → (∀ e ∈ d, CleanEntry e) → (d.map Prod.fst).Nodup →
      isEndNodeY d = false → leavesOfTree d ≠ [] → CleanEntry (k, .node d)

/-- Cleanliness of a document tree: clean entries with unique keys. -/
def CleanT (t : YTree) : Prop :=
  (∀ e ∈ t, CleanEntry e) ∧ (t.map Prod.fst).Nodup

/-- The `value` slot of a leaf record dict. -/
def lookVal (d : YTree) : PValue :=
  match d.lookup "value" with
  | some (.prim v) => v
  | _ => .none

/-- The resolved dtype of a leaf record dict's tag. -/
def lookDt (d : YTree) : DtypeF :=
  match d.lookup "dtype" with
  | some (.prim (.str s)) =>
      match strToDtype s with
      | some t => DtypeF.ty t
      | Option.none => DtypeF.noneD
  | _ => DtypeF.noneD

/-- The description slot of a leaf record dict (empty when absent). -/
def lookDesc (d : YTree) : String :=
  match d.lookup "desc" with
  | some (.prim (.str s)) => s
  | _ => ""

/-- The key quadruple a well-formed leaf decodes to under the given outer
scope segments: name is the last path segment, scope joins the outer and
inner segments, value/tag/description are read off the record dict. -/
def leafDictKey (σ : List String) (pd : List String × YTree) :
    String × PValue × DtypeF × String :=
  (osPathJoin (joinSegs (σ ++ pd.1.dropLast)) (pd.1.getLastD ""),
   lookVal pd.2, lookDt pd.2, lookDesc pd.2)

/-
  Theorems.  Each claim of the specification review is settled below; the
  helper lemmas come first.
-/

theorem fnDefNames_mem :
    ∀ (stmts : List PStmt) (fname : String),
      fname ∈ (findFunctionDefNodes stmts).map PStmt.defName ↔
        FnDefReachable fname stmts
  | [], f => by simp [findFunctionDefNodes, FnDefReachable]
  | .funcDef fn args ds body :: rest, f => by
      have hb := fnDefNames_mem body f
      have hr := fnDefNames_mem rest f
      show f ∈ (findFunctionDefStmt (.funcDef fn args ds body)
          ++ findFunctionDefNodes rest).map PStmt.defName ↔ _
      rw [List.map_append, List.mem_append]
      show f ∈ (PStmt.funcDef fn args ds body :: findFunctionDefNodes body).map
            PStmt.defName ∨ _ ↔ _
      rw [List.map_cons, List.mem_cons]
      show (f = fn ∨ _) ∨ _ ↔ (fn = f ∨ FnDefReachable f body) ∨ FnDefReachable f rest
      rw [hb, hr, eq_comm]
  | .annAssign t a v :: rest, f => by
      have hr := fnDefNames_mem rest f
      show f ∈ (findFunctionDefStmt (.annAssign t a v)
          ++ findFunctionDefNodes rest).map PStmt.defName ↔ _
      rw [List.map_append, List.mem_append]
      show f ∈ ([] : List PStmt).map PStmt.defName ∨ _ ↔ False ∨ FnDefReachable f rest
      rw [hr]
      simp
  | .assign ts v :: rest, f => by
      have hr := fnDefNames_mem rest f
      show f ∈ (findFunctionDefStmt (.assign ts v)
          ++ findFunctionDefNodes rest).map PStmt.defName ↔ _
      rw [List.map_append, List.mem_append]
      show f ∈ ([] : List PStmt).map PStmt.defName ∨ _ ↔ False ∨ FnDefReachable f rest
      rw [hr]
      simp
  | .classDef c body :: rest, f => by
      have hr := fnDefNames_mem rest f
      show f ∈ (findFunctionDefStmt (.classDef c body)
          ++ findFunctionDefNodes rest).map PStmt.defName ↔ _
      rw [List.map_append, List.mem_append]
      show f ∈ ([] : List PStmt).map PStmt.defName ∨ _ ↔ False ∨ FnDefReachable f rest
      rw [hr]
      simp
  | .exprStmt v :: rest, f => by
      have hr := fnDefNames_mem rest f
      show f ∈ (findFunctionDefStmt (.exprStmt v)
          ++ findFunctionDefNodes rest).map PStmt.defName ↔ _
      rw [List.map_append, List.mem_append]
      show f ∈ ([] : List PStmt).map PStmt.defName ∨ _ ↔ False ∨ FnDefReachable f rest
      rw [hr]
      simp
  | .passStmt :: rest, f => by
      have hr := fnDefNames_mem rest f
      show f ∈ (findFunctionDefStmt .passStmt
          ++ findFunctionDefNodes rest).map PStmt.defName ↔ _
      rw [List.map_append, List.mem_append]
      show f ∈ ([] : List PStmt).map PStmt.defName ∨ _ ↔ False ∨ FnDefReachable f rest
      rw [hr]
      simp

/-- C8: `add_scope(prefix, params)` sets every parameter's scope to the
prefix, a path separator, then the old scope — the separator is inserted
even over an empty old scope, leaving a trailing-empty-segment path — and
every full_name changes to the join of the new scope with the name; in
particular a parameter with scope `"loop"` rescoped with prefix `"test"`
gets scope `"test/loop"` and full_name `"test/loop/x"`, and an
empty-scope parameter rescoped with prefix `"p"` gets scope `"p/"`. -/
theorem add_scope_prepends_separator (pre : String) (l : List NamedPyParam) :
    (add_scope pre l).map NamedPyParam.scope
        = l.map (fun p => pre ++ "/" ++ p.param.scope)
    ∧ (add_scope pre l).map NamedPyParam.full_name
        = l.map (fun p => osPathJoin (pre ++ "/" ++ p.param.scope) p.name)
    ∧ (add_scope "test"
        [⟨"x", { value := .int 1, dtype := .ty .int, scope := "loop" }⟩]).map
          (fun p => (p.param.scope, p.full_name)) = [("test/loop", "test/loop/x")]
    ∧ (add_scope "p"
        [⟨"x", { value := .int 1, dtype := .ty .int }⟩]).map
          (fun p => p.param.scope) = ["p/"] := by
  refine ⟨?_, ?_, by decide, by decide⟩
  · simp only [add_scope, List.map_map]
    rfl
  · simp only [add_scope, List.map_map]
    rfl

/-- C10: `ast_node_to_value` decodes a tuple literal exactly as it decodes
the corresponding list literal (a Python list), so decoding alone forgets
tuple shape; `PyParam.compile` with the string tag `"tuple"` coerces the
decoded list into a tuple value, whereas with no declared type the value
stays a list (inferred tag `list`). -/
theorem tuple_decodes_as_list (elts : List PExpr) (xs : List PValue)
    (scope desc : String) :
    astNodeToValue (.tupleE elts) = astNodeToValue (.listE elts)
    ∧ PyParam.compile { value := .list xs, dtype := .strTag "tuple", scope, desc }
        = .ok { value := .tuple xs, dtype := .ty .tuple, scope, desc }
    ∧ PyParam.compile { value := .list xs, dtype := .noneD, scope, desc }
        = .ok { value := .list xs, dtype := .ty .list, scope, desc } := by
  refine ⟨?_, ?_, ?_⟩
  · simp [astNodeToValue]
  · simp [PyParam.compile, strToDtype, coerce]
    rfl
  · simp [PyParam.compile, pyTypeOf]

/-- C2: extracting the two-declaration example unit yields exactly the two
parameters `loop/start_index = 1` and `loop/max_iters = 6`, and compiling
the unit against the unmodified extracted list renders a source whose text
contains `start_index: int = 1` and `max_iters: int = 6`. -/
theorem literal_compile_example :
    getAllPyparamsFromSource "PyParam" c2Unit
      = .ok [⟨"start_index",
              { value := .int 1, dtype := .ty .int, scope := "loop",
                desc := "summation start index" }⟩,
             ⟨"max_iters",
              { value := .int 6, dtype := .ty .int, scope := "loop",
                desc := "max number of iterations" }⟩]
    ∧ (getAllPyparamsFromSource "PyParam" c2Unit).map
        (fun ps => ps.map NamedPyParam.full_name)
      = .ok ["loop/start_index", "loop/max_iters"]
    ∧ ((getAllPyparamsFromSource "PyParam" c2Unit).bind
         (fun ps => compileSourceCodeFromConfigsList c2Unit ps))
      = .ok "start_index: int = 1\nmax_iters: int = 6\n"
    ∧ strContains "start_index: int = 1\nmax_iters: int = 6\n" "start_index: int = 1"
    ∧ strContains "start_index: int = 1\nmax_iters: int = 6\n" "max_iters: int = 6" := by
  refine ⟨rfl, rfl, ?_, ⟨"", "\nmax_iters: int = 6\n", rfl⟩,
    ⟨"start_index: int = 1\n", "\n", rfl⟩⟩
  have h : ((getAllPyparamsFromSource "PyParam" c2Unit).bind
      (fun ps => compileSourceCodeFromConfigsList c2Unit ps))
      = .ok (renderModule
          [.annAssign "start_index" (.name "int") (some (.num 1)),
           .annAssign "max_iters" (.name "int") (some (.num 6))]) := rfl
  rw [h]
  simp only [renderModule, renderBodyLines, renderStmtLines, renderExpr]
  rfl

/-- C6 (amended): module encapsulation adds a forwarding binding
`self.f = f` exactly for every function definition reachable through
nested function bodies (top-level functions and functions nested inside
functions; class bodies are not entered) whose name does not start with
an underscore — not only for top-level functions — and the encapsulated
output is the class/initializer header, the re-indented unit lines, and
exactly those bindings. -/
theorem encapsulation_binding_names_spec (stmts : List PStmt)
    (fname n : String) (srcLines : List String) :
    (fname ∈ encapsulationBindingNames stmts ↔
      FnDefReachable fname stmts ∧ ¬ strStartsWith fname "_")
    ∧ encapsulateSourceWithClass n stmts srcLines
        = ["class " ++ pyParamModuleValue n ++ ":", "  def __init__(self):"]
          ++ srcLines.map (fun l => "    " ++ l)
          ++ (encapsulationBindingNames stmts).map
              (fun fn => "    self." ++ fn ++ " = " ++ fn) := by
  constructor
  · rw [encapsulationBindingNames, List.mem_filter, fnDefNames_mem]
    simp
  · rfl

/-- C6 (counterexample): in a unit where public `g` is defined nested
inside top-level `f`, encapsulation emits a `self.g = g` binding even
though `g` is not a top-level function of the unit, contradicting the
claim that bindings are generated exactly for top-level functions. -/
theorem encapsulation_binds_nested_function :
    "g" ∈ encapsulationBindingNames c6Unit
    ∧ isTopLevelFnName c6Unit "g" = false
    ∧ "    self.g = g" ∈ encapsulateSourceWithClass "m" c6Unit [] := by decide

/-- C7 (counterexample): a source text containing two occurrences of the
derive marker — one directive call and one embedded in the identifier
`xDeriveModule` — passes `derive_module`'s guard without a
multiple-derive error, because the guard counts parenthesis/whitespace
delimited tokens, not textual occurrences. -/
theorem derive_guard_substring_counterexample :
    (∃ a b c, c7Source = a ++ deriveModuleName ++ b ++ deriveModuleName ++ c)
    ∧ deriveModuleGuard c7Source = .ok true :=
  ⟨⟨"", "(\x22m\x22)\nx", " = 1\n", rfl⟩, rfl⟩

/-- C7 (amended): for a source whose text contains the derive marker,
`derive_module` raises the multiple-derive `ValueError` exactly when the
number of standalone marker tokens (pieces split on parentheses and
whitespace) differs from one, and proceeds past that guard exactly when
there is one such token. -/
theorem derive_guard_token_count (source : String)
    (h : strIn deriveModuleName source = true) :
    (deriveModuleGuard source
        = .error (.valueError "DeriveModule can be used only once in the code")
      ↔ (reSplitPW source).count deriveModuleName ≠ 1)
    ∧ (deriveModuleGuard source = .ok true
      ↔ (reSplitPW source).count deriveModuleName = 1) := by
  unfold deriveModuleGuard
  by_cases hc : (reSplitPW source).count deriveModuleName = 1 <;> simp [h, hc]

theorem derive_guard_token_count_witness :
    strIn deriveModuleName c7Source = true
    ∧ (deriveModuleGuard c7Source = .ok true
        ↔ (reSplitPW c7Source).count deriveModuleName = 1) :=
  ⟨rfl, (derive_guard_token_count c7Source rfl).2⟩

theorem pyDictSet_of_not_mem {α : Type} [DecidableEq α] {β : Type}
    (d : List (α × β)) (k : α) (v : β) (h : k ∉ d.map Prod.fst) :
    pyDictSet d k v = d ++ [(k, v)] := by
  induction d with
  | nil => rfl
  | cons kv rest ih =>
      simp only [List.map_cons, List.mem_cons] at h
      push_neg at h
      simp [pyDictSet, Ne.symm h.1, ih h.2]

theorem mem_keys_pyDictSet {α : Type} [DecidableEq α] {β : Type}
    (d : List (α × β)) (k j : α) (v : β) :
    j ∈ (pyDictSet d k v).map Prod.fst ↔ j ∈ d.map Prod.fst ∨ j = k := by
  induction d with
  | nil => simp [pyDictSet]
  | cons kv rest ih =>
      by_cases hk : kv.1 = k
      · simp only [pyDictSet]
        rw [if_pos hk]
        simp [← hk]
        tauto
      · simp only [pyDictSet]
        rw [if_neg hk]
        simp [ih]
        tauto

theorem lookup_eq_none_of_not_mem_keys {α : Type} [DecidableEq α] {β : Type}
    (d : List (α × β)) (k : α) (h : k ∉ d.map Prod.fst) :
    d.lookup k = Option.none := by
  induction d with
  | nil => rfl
  | cons kv rest ih =>
      simp only [List.map_cons, List.mem_cons] at h
      push_neg at h
      have hb : (k == kv.1) = false := by
        simp only [beq_eq_false_iff_ne, ne_eq]
        exact h.1
      simp [List.lookup, hb, ih h.2]

theorem mem_keys_configDict (l : List NamedPyParam) (k : String) :
    k ∈ (configParamsFullNameDict l).map Prod.fst ↔
      k ∈ l.map NamedPyParam.full_name := by
  suffices h : ∀ (acc : List (String × NamedPyParam)),
      k ∈ (l.foldl (fun d p => pyDictSet d p.full_name p) acc).map Prod.fst ↔
        k ∈ acc.map Prod.fst ∨ k ∈ l.map NamedPyParam.full_name by
    have := h []
    simpa [configParamsFullNameDict] using this
  induction l with
  | nil => simp
  | cons p rest ih =>
      intro acc
      simp only [List.foldl_cons, ih, mem_keys_pyDictSet, List.map_cons,
        List.mem_cons]
      tauto

theorem configDict_eq_map_of_nodup (l : List NamedPyParam)
    (hd : (l.map NamedPyParam.full_name).Nodup) :
    configParamsFullNameDict l = l.map (fun p => (p.full_name, p)) := by
  suffices h : ∀ (acc : List (String × NamedPyParam)),
      (∀ p ∈ l, p.full_name ∉ acc.map Prod.fst) →
      (l.map NamedPyParam.full_name).Nodup →
      l.foldl (fun d p => pyDictSet d p.full_name p) acc
        = acc ++ l.map (fun p => (p.full_name, p)) by
    simpa [configParamsFullNameDict] using h [] (by simp) hd
  clear hd
  induction l with
  | nil => simp
  | cons p rest ih =>
      intro acc hacc hnd
      simp only [List.map_cons, List.nodup_cons] at hnd
      simp only [List.foldl_cons]
      rw [pyDictSet_of_not_mem _ _ _ (hacc p (by simp))]
      rw [ih (acc ++ [(p.full_name, p)])
            (by
              intro q hq
              simp only [List.map_append, List.mem_append]
              push_neg
              constructor
              · exact hacc q (by simp [hq])
              · simp only [List.map_cons, List.map_nil, List.mem_singleton]
                intro hc
                exact hnd.1 (hc ▸ (List.mem_map_of_mem NamedPyParam.full_name hq))
              )
            hnd.2]
      simp

theorem lookup_map_pair_of_not_mem (l : List NamedPyParam) (k : String)
    (h : k ∉ l.map NamedPyParam.full_name) :
    (l.map (fun p => (p.full_name, p))).lookup k = Option.none := by
  apply lookup_eq_none_of_not_mem_keys
  simpa [List.map_map, Function.comp] using h

theorem lookup_map_pair_of_mem (l : List NamedPyParam) (k : String)
    (h : k ∈ l.map NamedPyParam.full_name) :
    ∃ q ∈ l, q.full_name = k ∧
      (l.map (fun p => (p.full_name, p))).lookup k = some q := by
  induction l with
  | nil => simp at h
  | cons p rest ih =>
      rw [List.map_cons, List.mem_cons] at h
      by_cases hp : p.full_name = k
      · refine ⟨p, by simp, hp, ?_⟩
        have hb : (k == p.full_name) = true := by simp [hp]
        simp [List.lookup, hb]
      · have hk : k ∈ rest.map NamedPyParam.full_name := by
          rcases h with h | h
          · exact absurd h.symm hp
          · exact h
        obtain ⟨q, hq, hqk, hlk⟩ := ih hk
        refine ⟨q, by simp [hq], hqk, ?_⟩
        have hb : (k == p.full_name) = false := by
          simp only [beq_eq_false_iff_ne, ne_eq]
          intro hc
          exact hp hc.symm
        simp only [List.map_cons, List.lookup, hb]
        exact hlk

theorem map_pair_tail_id (rest : List NamedPyParam) (k : String)
    (h : k ∉ rest.map NamedPyParam.full_name) (param : NamedPyParam) :
    (rest.map fun q => if q.full_name = k then param else q) = rest := by
  induction rest with
  | nil => rfl
  | cons q t ih =>
      simp only [List.map_cons, List.mem_cons] at h
      push_neg at h
      simp [Ne.symm h.1, ih h.2]

theorem pyDictSet_map_pair_replace (l : List NamedPyParam)
    (param : NamedPyParam) (hd : (l.map NamedPyParam.full_name).Nodup)
    (hm : param.full_name ∈ l.map NamedPyParam.full_name) :
    pyDictSet (l.map fun p => (p.full_name, p)) param.full_name param
      = (l.map fun q =>
          if q.full_name = param.full_name then param else q).map
        fun p => (p.full_name, p) := by
  induction l with
  | nil => simp at hm
  | cons p rest ih =>
      simp only [List.map_cons, List.nodup_cons] at hd
      rw [List.map_cons, List.mem_cons] at hm
      by_cases hp : p.full_name = param.full_name
      · simp only [List.map_cons, pyDictSet, if_pos hp, if_pos hp]
        rw [map_pair_tail_id rest param.full_name (hp ▸ hd.1) param]
      · have hm' : param.full_name ∈ rest.map NamedPyParam.full_name := by
          rcases hm with hm | hm
          · exact absurd hm.symm hp
          · exact hm
        simp only [List.map_cons, pyDictSet, if_neg hp, if_neg hp]
        rw [ih hd.2 hm']

/-- C3 (counterexample): replacing the entry whose full_name is the
designated `"version"` key leaves the list unchanged — `replace_param`
silently skips the version key — so the matching entry is not replaced
wholesale as the claim states. -/
theorem replace_param_skips_version_key :
    versionNewParam.full_name = "version"
    ∧ versionNewParam.full_name ∈ [versionOldParam].map NamedPyParam.full_name
    ∧ replace_param versionNewParam [versionOldParam] false
        = .ok [versionOldParam]
    ∧ versionOldParam.param.value ≠ versionNewParam.param.value := by
  refine ⟨rfl, by decide, rfl, by decide⟩

/-- C3 (amended): for a list with pairwise-distinct full_names and a
replacement record whose full_name is present and is not the designated
`"version"` key, `replace_param` (in either mode) returns the list with
the matching entry replaced wholesale at its original index and every
other entry unchanged in its original order; in particular the length is
preserved. -/
theorem replace_param_replaces_in_place (param : NamedPyParam)
    (l : List NamedPyParam) (mode : Bool)
    (hd : (l.map NamedPyParam.full_name).Nodup)
    (hm : param.full_name ∈ l.map NamedPyParam.full_name)
    (hv : param.full_name ≠ "version") :
    replace_param param l mode
      = .ok (l.map fun q => if q.full_name = param.full_name then param else q)
    ∧ (l.map fun q =>
        if q.full_name = param.full_name then param else q).length = l.length := by
  refine ⟨?_, by simp⟩
  have hdict := configDict_eq_map_of_nodup l hd
  obtain ⟨q, hq, hqk, hlk⟩ := lookup_map_pair_of_mem l param.full_name hm
  unfold replace_param
  dsimp only
  rw [hdict, hlk]
  simp only [Option.isNone_some, Bool.false_eq_true, if_false, if_pos hv]
  rw [pyDictSet_map_pair_replace l param hd hm]
  simp only [List.map_map]
  rw [if_pos (show param.full_name ≠ versionParamKeyName from hv)]
  rfl

theorem replace_param_replaces_in_place_witness :
    ((([⟨"x", { value := .int 1, dtype := .ty .int }⟩].map
        NamedPyParam.full_name).Nodup
      ∧ (⟨"x", { value := .int 9, dtype := .ty .int }⟩ :
          NamedPyParam).full_name
          ∈ [(⟨"x", { value := .int 1, dtype := .ty .int }⟩ :
              NamedPyParam)].map NamedPyParam.full_name
      ∧ (⟨"x", { value := .int 9, dtype := .ty .int }⟩ :
          NamedPyParam).full_name ≠ "version")
    ∧ replace_param ⟨"x", { value := .int 9, dtype := .ty .int }⟩
        [⟨"x", { value := .int 1, dtype := .ty .int }⟩] false
      = .ok ([⟨"x", { value := .int 1, dtype := .ty .int }⟩].map
          fun q => if q.full_name
              = (⟨"x", { value := .int 9, dtype := .ty .int }⟩ :
                  NamedPyParam).full_name
            then ⟨"x", { value := .int 9, dtype := .ty .int }⟩ else q)) :=
  ⟨⟨by decide, by decide, by decide⟩,
   (replace_param_replaces_in_place
      ⟨"x", { value := .int 9, dtype := .ty .int }⟩
      [⟨"x", { value := .int 1, dtype := .ty .int }⟩] false
      (by decide) (by decide) (by decide)).1⟩

/-- C4: replacing a record whose full_name is absent fails in strict mode
with a key-not-found error enumerating exactly the known keys (the
`{full_name: param}` dict's keys, whose members are the list's
full_names), and in permissive mode returns the input list unchanged. -/
theorem replace_param_missing_key (param : NamedPyParam)
    (l : List NamedPyParam)
    (h : param.full_name ∉ l.map NamedPyParam.full_name) :
    replace_param param l false
      = .error (.keyNotFound param.full_name
          ((configParamsFullNameDict l).map Prod.fst))
    ∧ replace_param param l true = .ok l
    ∧ (∀ k, k ∈ (configParamsFullNameDict l).map Prod.fst ↔
        k ∈ l.map NamedPyParam.full_name) := by
  have hnone : (configParamsFullNameDict l).lookup param.full_name
      = Option.none := by
    apply lookup_eq_none_of_not_mem_keys
    rw [mem_keys_configDict]
    exact h
  refine ⟨?_, ?_, fun k => mem_keys_configDict l k⟩
  · unfold replace_param
    dsimp only
    rw [hnone]
    rfl
  · unfold replace_param
    dsimp only
    rw [hnone]
    rfl

theorem replace_param_missing_key_witness :
    ((⟨"q", { value := .int 9, dtype := .ty .int }⟩ :
        NamedPyParam).full_name
      ∉ [(⟨"x", { value := .int 1, dtype := .ty .int }⟩ :
          NamedPyParam)].map NamedPyParam.full_name)
    ∧ replace_param ⟨"q", { value := .int 9, dtype := .ty .int }⟩
        [⟨"x", { value := .int 1, dtype := .ty .int }⟩] true
      = .ok [⟨"x", { value := .int 1, dtype := .ty .int }⟩] :=
  ⟨by decide,
   (replace_param_missing_key ⟨"q", { value := .int 9, dtype := .ty .int }⟩
      [⟨"x", { value := .int 1, dtype := .ty .int }⟩] (by decide)).2.1⟩

theorem except_ok_bind {ε α β : Type} (a : α) (f : α → Except ε β) :
    (Except.ok a >>= f : Except ε β) = f a := rfl

theorem except_error_bind {ε α β : Type} (e : ε) (f : α → Except ε β) :
    ((Except.error e : Except ε α) >>= f) = Except.error e := rfl

/-! String-path lemmas for the round-trip development. -/

/-- `String.intercalate.go` accumulates by appending on the left. -/
theorem intercalateGo_append (s : String) : ∀ (l : List String) (a b : String),
    String.intercalate.go (a ++ b) s l = a ++ String.intercalate.go b s l
  | [], _, _ => rfl
  | z :: zs, a, b => by
      show String.intercalate.go (a ++ b ++ s ++ z) s zs
        = a ++ String.intercalate.go (b ++ s ++ z) s zs
      rw [String.append_assoc, String.append_assoc, ← String.append_assoc b s z]
      exact intercalateGo_append s zs a (b ++ s ++ z)

/-- `"/".join` on a singleton. -/
theorem joinSegs_single (x : String) : joinSegs [x] = x := rfl

/-- `"/".join` peels its head off a list of two or more segments. -/
theorem joinSegs_cons₂ (x y : String) (ys : List String) :
    joinSegs (x :: y :: ys) = x ++ "/" ++ joinSegs (y :: ys) := by
  show String.intercalate.go (x ++ "/" ++ y) "/" ys
    = x ++ "/" ++ String.intercalate.go y "/" ys
  rw [String.append_assoc x, intercalateGo_append "/" ys x ("/" ++ y),
    intercalateGo_append "/" ys "/" y, ← String.append_assoc]

/-- `str.split` never returns an empty list (char level). -/
theorem splitChars_ne_nil (sep : Char) : ∀ l : List Char, splitChars sep l ≠ []
  | [] => by simp [splitChars]
  | c :: cs => by
      unfold splitChars
      by_cases h : c = sep
      · simp [h]
      · simp only [if_neg h]
        match hs : splitChars sep cs with
        | [] => simp
        | t :: ts => simp

/-- The pieces of `str.split` never contain the separator. -/
theorem splitChars_no_sep (sep : Char) : ∀ (l : List Char),
    ∀ p ∈ splitChars sep l, sep ∉ p
  | [] => by simp [splitChars]
  | c :: cs => by
      unfold splitChars
      by_cases h : c = sep
      · simp only [if_pos h]
        intro p hp
        rcases List.mem_cons.1 hp with rfl | hp
        · simp
        · exact splitChars_no_sep sep cs p hp
      · simp only [if_neg h]
        match hs : splitChars sep cs with
        | [] => exact absurd hs (splitChars_ne_nil sep cs)
        | t :: ts =>
          intro p hp
          rcases List.mem_cons.1 hp with rfl | hp
          · intro hmem
            rcases List.mem_cons.1 hmem with rfl | hmem
            · exact h rfl
            · exact splitChars_no_sep sep cs t (by rw [hs]; exact List.mem_cons_self t ts) hmem
          · exact splitChars_no_sep sep cs p (by rw [hs]; exact List.mem_cons_of_mem t hp)

/-- The one-step equation of `splitChars` on a cons cell. -/
theorem splitChars_cons_eq (sep c : Char) (cs : List Char) :
    splitChars sep (c :: cs) =
      if c = sep then [] :: splitChars sep cs
      else match splitChars sep cs with
           | t :: ts => (c :: t) :: ts
           | [] => [[c]] := rfl

/-- `str.split` distributes over a separator occurrence. -/
theorem splitChars_append_sep (sep : Char) : ∀ (a b : List Char),
    splitChars sep (a ++ sep :: b) = splitChars sep a ++ splitChars sep b
  | [], b => by simp [splitChars]
  | c :: cs, b => by
      rw [List.cons_append, splitChars_cons_eq sep c (cs ++ sep :: b),
        splitChars_cons_eq sep c cs]
      by_cases h : c = sep
      · rw [if_pos h, if_pos h, splitChars_append_sep sep cs b, List.cons_append]
      · rw [if_neg h, if_neg h, splitChars_append_sep sep cs b]
        match hs : splitChars sep cs with
        | [] => exact absurd hs (splitChars_ne_nil sep cs)
        | t :: ts => rfl

/-- `str.split` of separator-free text is the singleton piece. -/
theorem splitChars_of_no_sep (sep : Char) : ∀ (l : List Char), sep ∉ l →
    splitChars sep l = [l]
  | [], _ => rfl
  | c :: cs, h => by
      unfold splitChars
      rw [if_neg (by rintro rfl; exact h (List.mem_cons_self c cs)),
        splitChars_of_no_sep sep cs (fun hm => h (List.mem_cons_of_mem c hm))]

/-- `s.split("/")` is never empty. -/
theorem pySplit_ne_nil (s : String) : pySplit s ≠ [] := by
  unfold pySplit
  intro h
  exact splitChars_ne_nil '/' s.data (List.map_eq_nil_iff.1 h)

/-- The pieces of `s.split("/")` are free of the separator. -/
theorem pySplit_no_slash (s : String) : ∀ x ∈ pySplit s, '/' ∉ x.data := by
  unfold pySplit
  intro x hx
  rcases List.mem_map.1 hx with ⟨l, hl, rfl⟩
  exact splitChars_no_sep '/' s.data l hl

/-- Splitting a separator-free string yields the singleton. -/
theorem pySplit_of_no_slash (s : String) (h : '/' ∉ s.data) : pySplit s = [s] := by
  unfold pySplit
  rw [splitChars_of_no_sep '/' s.data h]
  rfl

/-- Splitting and rejoining on `"/"` restores the string (char-level core). -/
theorem joinSegs_splitChars_data : ∀ l : List Char,
    (joinSegs ((splitChars '/' l).map String.mk)).data = l
  | [] => rfl
  | c :: cs => by
      by_cases h : c = '/'
      · show (joinSegs ((splitChars '/' (c :: cs)).map String.mk)).data = c :: cs
        rw [splitChars_cons_eq, if_pos h]
        match hs : splitChars '/' cs with
        | [] => exact absurd hs (splitChars_ne_nil '/' cs)
        | t :: ts =>
          have ih := joinSegs_splitChars_data cs
          rw [hs] at ih
          rw [List.map_cons, List.map_cons, joinSegs_cons₂, String.data_append,
            String.data_append]
          rw [List.map_cons] at ih
          rw [ih]
          subst h
          rfl
      · show (joinSegs ((splitChars '/' (c :: cs)).map String.mk)).data = c :: cs
        rw [splitChars_cons_eq, if_neg h]
        have ih := joinSegs_splitChars_data cs
        match hs : splitChars '/' cs with
        | [t] =>
          rw [hs] at ih
          rw [List.map_cons, List.map_nil, joinSegs_single] at ih
          show (joinSegs (((c :: t) :: []).map String.mk)).data = c :: cs
          rw [List.map_cons, List.map_nil, joinSegs_single]
          exact congrArg (List.cons c) ih
        | t :: z :: zs =>
          rw [hs] at ih
          rw [List.map_cons, List.map_cons, joinSegs_cons₂, String.data_append,
            String.data_append] at ih
          show (joinSegs (((c :: t) :: z :: zs).map String.mk)).data = c :: cs
          rw [List.map_cons, List.map_cons, joinSegs_cons₂, String.data_append,
            String.data_append]
          exact congrArg (List.cons c) ih
        | [] => exact absurd hs (splitChars_ne_nil '/' cs)

/-- `"/".join(s.split("/")) == s`. -/
theorem joinSegs_pySplit (s : String) : joinSegs (pySplit s) = s := by
  apply String.ext
  exact joinSegs_splitChars_data s.data

/-- Splitting the rejoin of non-empty separator-free segments restores
them. -/
theorem pySplit_joinSegs : ∀ xs : List String, xs ≠ [] →
    (∀ x ∈ xs, '/' ∉ x.data) → pySplit (joinSegs xs) = xs
  | [], h, _ => absurd rfl h
  | [x], _, hf => by
      rw [joinSegs_single]
      exact pySplit_of_no_slash x (hf x (List.mem_singleton.2 rfl))
  | x :: y :: ys, _, hf => by
      rw [joinSegs_cons₂]
      unfold pySplit
      have hdata : (x ++ "/" ++ joinSegs (y :: ys)).data
          = x.data ++ '/' :: (joinSegs (y :: ys)).data := by
        rw [String.data_append, String.data_append, List.append_assoc]
        rfl
      rw [hdata, splitChars_append_sep '/' x.data (joinSegs (y :: ys)).data,
        splitChars_of_no_sep '/' x.data (hf x (List.mem_cons_self x (y :: ys)))]
      have ih := pySplit_joinSegs (y :: ys) (by simp)
        (fun z hz => hf z (List.mem_cons_of_mem x hz))
      unfold pySplit at ih
      rw [List.map_append, ih]
      rfl

/-- Joining distributes over appending a final segment. -/
theorem joinSegs_concat : ∀ (xs : List String), xs ≠ [] → ∀ (x : String),
    joinSegs (xs ++ [x]) = joinSegs xs ++ "/" ++ x
  | [], h, _ => absurd rfl h
  | [a], _, x => by rw [joinSegs_single]; rfl
  | a :: b :: bs, _, x => by
      show joinSegs (a :: b :: (bs ++ [x])) = _
      rw [joinSegs_cons₂, ← List.cons_append b bs [x],
        joinSegs_concat (b :: bs) (by simp) x, joinSegs_cons₂,
        ← String.append_assoc, ← String.append_assoc]

/-- A non-empty join carries its last segment's text as a suffix. -/
theorem joinSegs_concat_data (ρ : List String) (x : String) :
    ∃ pre, (joinSegs (ρ ++ [x])).data = pre ++ x.data := by
  match ρ with
  | [] => exact ⟨[], rfl⟩
  | a :: as =>
      rw [joinSegs_concat (a :: as) (by simp) x]
      exact ⟨(joinSegs (a :: as) ++ "/").data, by rw [String.data_append]⟩

/-- A nonempty slash-free string does not start with the separator. -/
theorem strStartsWith_slash_false (name : String) (h : '/' ∉ name.data) :
    strStartsWith name "/" = false := by
  unfold strStartsWith
  rw [Bool.eq_false_iff]
  intro hp
  have : ('/' : Char) :: [] <+: name.data := List.isPrefixOf_iff_prefix.1 hp
  exact h (this.subset (List.mem_singleton.2 rfl))

/-- A join ending in a non-empty segment carries that segment as a text
suffix and hence is itself non-empty. -/
theorem joinSegs_concat_ne_empty (ρ : List String) (x : String) (hx : x ≠ "") :
    joinSegs (ρ ++ [x]) ≠ "" := by
  obtain ⟨pre, hpre⟩ := joinSegs_concat_data ρ x
  intro h
  rw [h] at hpre
  have hxd : x.data ≠ [] := fun hd => hx (String.ext hd)
  have : ([] : List Char) = pre ++ x.data := hpre
  cases pre with
  | nil => exact hxd this.symm
  | cons a b => exact List.noConfusion this

/-- A join ending in a non-empty slash-free segment does not end with the
separator. -/
theorem strEndsWith_joinSegs_false (ρ : List String) (x : String)
    (hx : x ≠ "") (hxs : '/' ∉ x.data) :
    strEndsWith (joinSegs (ρ ++ [x])) "/" = false := by
  obtain ⟨pre, hpre⟩ := joinSegs_concat_data ρ x
  rw [Bool.eq_false_iff]
  intro hends
  have hsuf : ['/'] <:+ (joinSegs (ρ ++ [x])).data :=
    List.isSuffixOf_iff_suffix.1 hends
  have hxsuf : x.data <:+ (joinSegs (ρ ++ [x])).data := ⟨pre, hpre.symm⟩
  have hxd : x.data ≠ [] := fun hd => hx (String.ext hd)
  have hle : (['/'] : List Char).length ≤ x.data.length := by
    cases hd : x.data with
    | nil => exact absurd hd hxd
    | cons a b => simp
  have := List.suffix_of_suffix_length_le hsuf hxsuf hle
  exact hxs (this.subset (List.mem_singleton.2 rfl))

/-- `os.path.join` of a joined segment path and a final good segment joins
them all. -/
theorem osPathJoin_joinSegs (ρ : List String)
    (hρ : ∀ x ∈ ρ, x ≠ "" ∧ '/' ∉ x.data)
    (name : String) (hn1 : name ≠ "") (hn2 : '/' ∉ name.data) :
    osPathJoin (joinSegs ρ) name = joinSegs (ρ ++ [name]) := by
  unfold osPathJoin
  rw [strStartsWith_slash_false name hn2]
  simp only [Bool.false_eq_true, if_false]
  match ρ with
  | [] => rw [if_pos (show joinSegs ([] : List String) = "" from rfl)]; rfl
  | a :: as =>
      rcases List.eq_nil_or_concat (a :: as) with h | ⟨ρ₀, xl, hρ₀⟩
      · exact absurd h (by simp)
      · rw [List.concat_eq_append] at hρ₀
        rw [hρ₀]
        have hxl := hρ xl (by
          rw [hρ₀]
          exact List.mem_append_right ρ₀ (List.mem_singleton.2 rfl))
        rw [if_neg (joinSegs_concat_ne_empty ρ₀ xl hxl.1),
          strEndsWith_joinSegs_false ρ₀ xl hxl.1 hxl.2]
        simp only [Bool.false_eq_true, if_false]
        rw [← joinSegs_concat (ρ₀ ++ [xl]) (by simp) name]

/-- Splitting an `os.path.join` result ends at the joined leaf name. -/
theorem pySplit_osPathJoin (scope name : String)
    (hn1 : name ≠ "") (hn2 : '/' ∉ name.data) :
    ∃ ρ, pySplit (osPathJoin scope name) = ρ ++ [name] := by
  unfold osPathJoin
  rw [strStartsWith_slash_false name hn2]
  simp only [Bool.false_eq_true, if_false]
  by_cases hsc : scope = ""
  · rw [if_pos hsc, pySplit_of_no_slash name hn2]
    exact ⟨[], rfl⟩
  · rw [if_neg hsc]
    by_cases hend : strEndsWith scope "/"
    · rw [if_pos hend]
      obtain ⟨init, hinit⟩ := List.isSuffixOf_iff_suffix.1 hend
      refine ⟨(splitChars '/' init).map String.mk, ?_⟩
      unfold pySplit
      rw [String.data_append, ← hinit, List.append_assoc]
      show ((splitChars '/' (init ++ '/' :: name.data)).map String.mk) = _
      rw [splitChars_append_sep '/' init name.data,
        splitChars_of_no_sep '/' name.data hn2, List.map_append]
      rfl
    · rw [if_neg hend]
      refine ⟨(splitChars '/' scope.data).map String.mk, ?_⟩
      unfold pySplit
      rw [String.data_append, String.data_append, List.append_assoc]
      show ((splitChars '/' (scope.data ++ '/' :: name.data)).map String.mk) = _
      rw [splitChars_append_sep '/' scope.data name.data,
        splitChars_of_no_sep '/' name.data hn2, List.map_append]
      rfl

/-- The split full name of a well-formed parameter ends in its name. -/
theorem fsegs_decomp (p : NamedPyParam) (hw : WfParamC1 p) :
    pySplit p.full_name = (pySplit p.full_name).dropLast ++ [p.name] := by
  obtain ⟨ρ, hρ⟩ := pySplit_osPathJoin p.param.scope p.name hw.2.2.1 hw.2.2.2.1
  show pySplit (osPathJoin p.param.scope p.name) = _
  rw [hρ, show p.full_name = osPathJoin p.param.scope p.name from rfl, hρ,
    List.dropLast_concat]

/-- Extending the read root by a slash-free key extends the scope segment
list. -/
theorem pySplit_root_ext (root k : String) (hk : '/' ∉ k.data) :
    (pySplit (joinSegs [root, k])).drop 1 = (pySplit root).drop 1 ++ [k] := by
  rw [joinSegs_cons₂, joinSegs_single]
  have hdata : (root ++ "/" ++ k).data = root.data ++ '/' :: k.data := by
    rw [String.data_append, String.data_append, List.append_assoc]
    rfl
  unfold pySplit
  rw [hdata, splitChars_append_sep '/' root.data k.data,
    splitChars_of_no_sep '/' k.data hk, List.map_append]
  match hs : splitChars '/' root.data with
  | [] => exact absurd hs (splitChars_ne_nil '/' root.data)
  | t :: ts => simp


/-- The cons equation of `List.lookup` as an `if`. -/
theorem lookup_cons' {β : Type} (k a : String) (b : β) (es : List (String × β)) :
    List.lookup k ((a, b) :: es) = if k == a then some b else List.lookup k es := by
  cases h : k == a <;> simp [List.lookup, h]

/-- `lookup` of an absent key misses. -/
theorem lookup_none_not_mem {β : Type} (t : List (String × β)) (k : String)
    (h : k ∉ t.map Prod.fst) : t.lookup k = Option.none := by
  induction t with
  | nil => rfl
  | cons kv rest ih =>
      obtain ⟨a, b⟩ := kv
      simp only [List.map_cons, List.mem_cons] at h
      rw [lookup_cons', if_neg (by
        rw [beq_eq_false_iff_ne.2 (fun he => h (Or.inl he))]
        exact Bool.false_ne_true)]
      exact ih (fun hm => h (Or.inr hm))

/-- `lookup` passes over an association prefix without the key. -/
theorem lookup_append_of_none {β : Type} (t₁ t₂ : List (String × β)) (k : String)
    (h : t₁.lookup k = Option.none) : (t₁ ++ t₂).lookup k = t₂.lookup k := by
  induction t₁ with
  | nil => rfl
  | cons kv rest ih =>
      obtain ⟨a, b⟩ := kv
      rw [lookup_cons'] at h
      rw [List.cons_append, lookup_cons']
      by_cases hk : (k == a) = true
      · rw [if_pos hk] at h
        exact absurd h (by simp)
      · rw [if_neg hk] at h ⊢
        exact ih h

/-- `lookup` finds an entry sitting after a prefix without its key. -/
theorem lookup_middle {β : Type} (t₁ t₂ : List (String × β)) (k : String) (v : β)
    (h : k ∉ t₁.map Prod.fst) : (t₁ ++ (k, v) :: t₂).lookup k = some v := by
  rw [lookup_append_of_none t₁ _ k (lookup_none_not_mem t₁ k h), lookup_cons']
  simp

/-- Overwriting an entry after a prefix without its key replaces it in
place. -/
theorem pyDictSet_middle {β : Type} (t₁ t₂ : List (String × β)) (k : String)
    (w v : β) (h : k ∉ t₁.map Prod.fst) :
    pyDictSet (t₁ ++ (k, w) :: t₂) k v = t₁ ++ (k, v) :: t₂ := by
  induction t₁ with
  | nil => simp [pyDictSet]
  | cons kv rest ih =>
      obtain ⟨a, b⟩ := kv
      simp only [List.map_cons, List.mem_cons] at h
      rw [List.cons_append,
        show pyDictSet ((a, b) :: (rest ++ (k, w) :: t₂)) k v
          = if a = k then (k, v) :: (rest ++ (k, w) :: t₂)
            else (a, b) :: pyDictSet (rest ++ (k, w) :: t₂) k v from rfl,
        if_neg (fun he => h (Or.inl he.symm)), ih (fun hm => h (Or.inr hm))]
      rfl

/-- A successful `lookup` in a dict with unique keys splits it around the
found entry. -/
theorem lookup_split_of_nodup {β : Type} : ∀ (t : List (String × β)) (k : String)
    (v : β), (t.map Prod.fst).Nodup → t.lookup k = some v →
    ∃ t₁ t₂, t = t₁ ++ (k, v) :: t₂ ∧ k ∉ t₁.map Prod.fst ∧ k ∉ t₂.map Prod.fst
  | [], k, v, _, h => by simp [List.lookup] at h
  | (a, b) :: rest, k, v, hd, h => by
      rw [lookup_cons'] at h
      rw [List.map_cons, List.nodup_cons] at hd
      by_cases hk : k = a
      · rw [if_pos (by rw [hk]; exact beq_self_eq_true a)] at h
        have hv : b = v := Option.some.inj h
        subst hk
        subst hv
        exact ⟨[], rest, rfl, by simp, hd.1⟩
      · rw [if_neg (by rw [beq_eq_false_iff_ne.2 hk]; exact Bool.false_ne_true)] at h
        obtain ⟨t₁, t₂, ht, h1, h2⟩ := lookup_split_of_nodup rest k v hd.2 h
        refine ⟨(a, b) :: t₁, t₂, by rw [ht]; rfl, ?_, h2⟩
        simp only [List.map_cons, List.mem_cons]
        rintro (he | hm)
        · exact hk (by rw [he])
        · exact h1 hm

/-- `lookup` yields a member entry. -/
theorem mem_of_lookup {β : Type} : ∀ (t : List (String × β)) (k : String) (v : β),
    t.lookup k = some v → (k, v) ∈ t
  | [], k, v, h => by simp [List.lookup] at h
  | (a, b) :: rest, k, v, h => by
      rw [lookup_cons'] at h
      by_cases hk : k = a
      · rw [if_pos (by rw [hk]; exact beq_self_eq_true a)] at h
        have hv : b = v := Option.some.inj h
        subst hk
        subst hv
        exact List.mem_cons_self _ _
      · rw [if_neg (by rw [beq_eq_false_iff_ne.2 hk]; exact Bool.false_ne_true)] at h
        exact List.mem_cons_of_mem _ (mem_of_lookup rest k v h)

/-- The leaf collection distributes over tree concatenation. -/
theorem leavesOfTree_append (a b : YTree) :
    leavesOfTree (a ++ b) = leavesOfTree a ++ leavesOfTree b := by
  induction a with
  | nil => rfl
  | cons kv rest ih =>
      obtain ⟨a, yv⟩ := kv
      rw [List.cons_append,
        show leavesOfTree ((a, yv) :: (rest ++ b))
          = leavesOfVal a yv ++ leavesOfTree (rest ++ b) from rfl,
        ih,
        show leavesOfTree ((a, yv) :: rest)
          = leavesOfVal a yv ++ leavesOfTree rest from rfl,
        List.append_assoc]

/-- A zero-length string is empty. -/
theorem string_eq_empty_of_length_zero (s : String) (h : ¬ s.length ≠ 0) : s = "" := by
  apply String.ext
  have : s.length = 0 := not_not.1 h
  exact List.length_eq_zero.1 this

/-- `_str_to_dtype` inverts `__name__` on every serializable tag. -/
theorem strToDtype_typeName (t : PType) (h : t ≠ .noneType) :
    strToDtype t.typeName = some t := by
  cases t <;> first | rfl | exact absurd rfl h

/-- Calling a value's own type on it is the identity (for serializable
types). -/
theorem coerce_pyTypeOf (v : PValue) (h : pyTypeOf v ≠ .noneType) :
    coerce (pyTypeOf v) v = .ok v := by
  cases v <;> first | rfl | exact absurd rfl h

/-- `to_dict` succeeds with the leaf record shape on a well-formed
parameter. -/
theorem toDictY_eq (p : NamedPyParam) (hw : WfParamC1 p) :
    NamedPyParam.toDictY p = .ok (leafDictOf p) := by
  unfold NamedPyParam.toDictY leafDictOf
  rw [hw.1]
  rfl

/-- The record of a well-formed parameter is a well-formed leaf dict. -/
theorem wfLeafDict_leafDictOf (p : NamedPyParam) (hw : WfParamC1 p) :
    WfLeafDict (leafDictOf p) := by
  refine ⟨pyTypeOf p.param.value, p.param.value, p.param.desc, ?_, rfl, hw.2.1⟩
  unfold leafDictOf
  rw [hw.1]
  rfl

/-- A well-formed leaf dict is an end node. -/
theorem isEndNodeY_of_wfLeafDict (d : YTree) (hd : WfLeafDict d) :
    isEndNodeY d = true := by
  obtain ⟨t, v, desc, rfl, _, _⟩ := hd
  by_cases h : desc.length ≠ 0
  · rw [if_pos h]
    rfl
  · rw [if_neg h]
    rfl

/-- A node whose keys avoid `value` is not an end node. -/
theorem isEndNodeY_false_of_no_value (d : YTree) (h : "value" ∉ d.map Prod.fst) :
    isEndNodeY d = false := by
  unfold isEndNodeY
  rw [lookup_none_not_mem d "value" h]
  rfl

/-- A clean entry has a good key and a node payload. -/
theorem cleanEntry_goodKey (k : String) (yv : YVal) (h : CleanEntry (k, yv)) :
    GoodKey k ∧ ∃ d, yv = .node d := by
  cases h with
  | leaf k d hg _ => exact ⟨hg, d, rfl⟩
  | sub k d hg _ _ _ _ => exact ⟨hg, d, rfl⟩

/-- A tree of clean entries has no `value` key and hence is not an end
node. -/
theorem isEndNodeY_false_of_clean (d : YTree) (h : ∀ e ∈ d, CleanEntry e) :
    isEndNodeY d = false := by
  apply isEndNodeY_false_of_no_value
  intro hmem
  rcases List.mem_map.1 hmem with ⟨⟨k, yv⟩, hin, hk⟩
  have hg := (cleanEntry_goodKey k yv (h _ hin)).1
  apply hg.2.1
  rw [show (k : String) = "value" from hk]
  exact List.mem_cons_self _ _

/-- `NamedPyParam.from_dict` on a well-formed leaf record under any scope:
the value round-trips through the dtype tag unchanged. -/
theorem namedPyParamFromYDict_shape (name scope : String) (t : PType)
    (v : PValue) (desc : String) (ht : pyTypeOf v = t) (htn : t ≠ .noneType) :
    namedPyParamFromYDict name
      ([("dtype", .prim (.str t.typeName)), ("value", .prim v)]
        ++ (if desc.length ≠ 0 then [("desc", .prim (.str desc))] else []))
      scope
    = .ok ⟨name, { value := v, dtype := .ty t, scope := scope, desc := desc }⟩ := by
  have hcomp : PyParam.compile
      { value := v, dtype := .strTag t.typeName, scope := scope, desc := desc }
      = Except.bind (coerce t v)
          (fun v' => Except.ok
            ({ value := v', dtype := DtypeF.ty t, scope := scope, desc := desc }
              : PyParam)) := by
    have h2 : PyParam.compile
        { value := v, dtype := .strTag t.typeName, scope := scope, desc := desc }
        = match strToDtype t.typeName with
          | Option.none => Except.error
              (PyErr.valueError ("Unsupported PyParam dtype: " ++ t.typeName))
          | some t' => Except.bind (coerce t' v)
              (fun v' => Except.ok
                ({ value := v', dtype := DtypeF.ty t', scope := scope, desc := desc }
                  : PyParam)) := rfl
    rw [h2, strToDtype_typeName t htn]
  by_cases h : desc.length ≠ 0
  · rw [if_pos h]
    have h1 : namedPyParamFromYDict name
        [("dtype", .prim (.str t.typeName)), ("value", .prim v),
         ("desc", .prim (.str desc))] scope
        = (PyParam.compile
            { value := v, dtype := .strTag t.typeName,
              scope := scope, desc := desc }).bind
          (fun p => (Except.ok ⟨name, p⟩ : Except PyErr NamedPyParam)) := rfl
    rw [show ([("dtype", YVal.prim (.str t.typeName)), ("value", YVal.prim v)]
        ++ [("desc", YVal.prim (.str desc))])
      = [("dtype", YVal.prim (.str t.typeName)), ("value", YVal.prim v),
         ("desc", YVal.prim (.str desc))] from rfl, h1, hcomp, ← ht,
      coerce_pyTypeOf v (by rw [ht]; exact htn)]
    rfl
  · rw [if_neg h]
    have hdesc : desc = "" := string_eq_empty_of_length_zero desc h
    subst hdesc
    have h1 : namedPyParamFromYDict name
        [("dtype", .prim (.str t.typeName)), ("value", .prim v)] scope
        = (PyParam.compile
            { value := v, dtype := .strTag t.typeName,
              scope := scope, desc := "" }).bind
          (fun p => (Except.ok ⟨name, p⟩ : Except PyErr NamedPyParam)) := rfl
    rw [show ([("dtype", YVal.prim (.str t.typeName)), ("value", YVal.prim v)]
        ++ ([] : YTree))
      = [("dtype", YVal.prim (.str t.typeName)), ("value", YVal.prim v)] from
        List.append_nil _, h1, hcomp, ← ht,
      coerce_pyTypeOf v (by rw [ht]; exact htn)]
    rfl

/-- The tuple unfolding of the leaf decoder. -/
theorem leafDictKey_eq (σ : List String) (pd : List String × YTree) :
    leafDictKey σ pd
    = (osPathJoin (joinSegs (σ ++ pd.1.dropLast)) (pd.1.getLastD ""),
       lookVal pd.2, lookDt pd.2, lookDesc pd.2) := rfl

/-- The decoded key quadruple of a well-formed leaf at a concrete path. -/
theorem leafDictKey_shape (σ ρ : List String) (name : String) (t : PType)
    (v : PValue) (desc : String) (htn : t ≠ .noneType) :
    leafDictKey σ (ρ ++ [name],
      [("dtype", .prim (.str t.typeName)), ("value", .prim v)]
        ++ (if desc.length ≠ 0 then [("desc", .prim (.str desc))] else []))
    = (osPathJoin (joinSegs (σ ++ ρ)) name, v, .ty t, desc) := by
  by_cases h : desc.length ≠ 0
  · rw [if_pos h, leafDictKey_eq]
    have hdt : lookDt [("dtype", YVal.prim (.str t.typeName)),
        ("value", YVal.prim v), ("desc", YVal.prim (.str desc))]
        = DtypeF.ty t := by
      have h1 : lookDt [("dtype", YVal.prim (.str t.typeName)),
          ("value", YVal.prim v), ("desc", YVal.prim (.str desc))]
          = match strToDtype t.typeName with
            | some t' => DtypeF.ty t'
            | Option.none => DtypeF.noneD := rfl
      rw [h1, strToDtype_typeName t htn]
    show (osPathJoin (joinSegs (σ ++ (ρ ++ [name]).dropLast))
        ((ρ ++ [name]).getLastD ""), v,
      lookDt [("dtype", YVal.prim (.str t.typeName)), ("value", YVal.prim v),
        ("desc", YVal.prim (.str desc))], desc) = _
    rw [hdt, List.getLastD_concat, List.dropLast_concat]
  · rw [if_neg h, leafDictKey_eq]
    have hdesc : desc = "" := string_eq_empty_of_length_zero desc h
    subst hdesc
    have hdt : lookDt ([("dtype", YVal.prim (.str t.typeName)),
        ("value", YVal.prim v)] ++ [])
        = DtypeF.ty t := by
      have h1 : lookDt ([("dtype", YVal.prim (.str t.typeName)),
          ("value", YVal.prim v)] ++ [])
          = match strToDtype t.typeName with
            | some t' => DtypeF.ty t'
            | Option.none => DtypeF.noneD := rfl
      rw [h1, strToDtype_typeName t htn]
    show (osPathJoin (joinSegs (σ ++ (ρ ++ [name]).dropLast))
        ((ρ ++ [name]).getLastD ""), v,
      lookDt ([("dtype", YVal.prim (.str t.typeName)),
        ("value", YVal.prim v)] ++ []), "") = _
    rw [hdt, List.getLastD_concat, List.dropLast_concat]

/-- Decoding a well-formed parameter's leaf at the root recovers its key
quadruple. -/
theorem leafDictKey_param (p : NamedPyParam) (hw : WfParamC1 p) :
    leafDictKey [] (leafFor p) = paramKey4 p := by
  have hdec := fsegs_decomp p hw
  have hleaf : leafFor p
      = ((pySplit p.full_name).dropLast ++ [p.name],
         [("dtype", .prim (.str (pyTypeOf p.param.value).typeName)),
          ("value", .prim p.param.value)]
           ++ (if p.param.desc.length ≠ 0
               then [("desc", .prim (.str p.param.desc))] else [])) := by
    unfold leafFor leafDictOf
    rw [← hdec, hw.1]
    rfl
  rw [hleaf, leafDictKey_shape [] ((pySplit p.full_name).dropLast) p.name
    (pyTypeOf p.param.value) p.param.value p.param.desc hw.2.1]
  have hgood : ∀ x ∈ (pySplit p.full_name).dropLast, x ≠ "" ∧ '/' ∉ x.data := by
    intro x hx
    have hmem : x ∈ pySplit p.full_name := (List.dropLast_sublist _).subset hx
    exact ⟨(hw.2.2.2.2 x hmem).1, pySplit_no_slash p.full_name x hmem⟩
  rw [List.nil_append,
    osPathJoin_joinSegs _ hgood p.name hw.2.2.1 hw.2.2.2.1, ← hdec,
    joinSegs_pySplit]
  unfold paramKey4
  rw [hw.1]

/-- Every leaf path contributed by an entry starts with the entry's key. -/
theorem leavesOfVal_head (k : String) (yv : YVal) :
    ∀ pd ∈ leavesOfVal k yv, ∃ ρ', pd.1 = k :: ρ' := by
  intro pd hpd
  cases yv with
  | prim v => simp [leavesOfVal] at hpd
  | node sub =>
      unfold leavesOfVal at hpd
      by_cases he : isEndNodeY sub
      · rw [if_pos he] at hpd
        rcases List.mem_singleton.1 hpd with rfl
        exact ⟨[], rfl⟩
      · rw [if_neg he] at hpd
        rcases List.mem_map.1 hpd with ⟨qd, _, rfl⟩
        exact ⟨qd.1, rfl⟩

/-- Every tree leaf comes from one of the tree's entries. -/
theorem mem_leavesOfTree : ∀ (t : YTree), ∀ pd ∈ leavesOfTree t,
    ∃ e ∈ t, pd ∈ leavesOfVal e.1 e.2
  | [], pd, hpd => by simp [leavesOfTree] at hpd
  | (k, yv) :: rest, pd, hpd => by
      rw [show leavesOfTree ((k, yv) :: rest)
        = leavesOfVal k yv ++ leavesOfTree rest from rfl] at hpd
      rcases List.mem_append.1 hpd with h | h
      · exact ⟨(k, yv), List.mem_cons_self _ _, h⟩
      · obtain ⟨e, he, hm⟩ := mem_leavesOfTree rest pd h
        exact ⟨e, List.mem_cons_of_mem _ he, hm⟩

/-- Leaf paths are never empty. -/
theorem leavesOfTree_path_ne_nil (t : YTree) :
    ∀ pd ∈ leavesOfTree t, pd.1 ≠ [] := by
  intro pd hpd
  obtain ⟨e, _, hm⟩ := mem_leavesOfTree t pd hpd
  obtain ⟨ρ', hρ'⟩ := leavesOfVal_head e.1 e.2 pd hm
  rw [hρ']
  exact List.cons_ne_nil _ _

/-- Shifting one scope segment from the path into the outer scope list
does not change the decoded key quadruple. -/
theorem leafDictKey_cons (σ : List String) (k : String) (ρ : List String)
    (d0 : YTree) (h : ρ ≠ []) :
    leafDictKey σ (k :: ρ, d0) = leafDictKey (σ ++ [k]) (ρ, d0) := by
  rcases List.eq_nil_or_concat ρ with rfl | ⟨ρ₀, x, hρ⟩
  · exact absurd rfl h
  · rw [List.concat_eq_append] at hρ
    subst hρ
    rw [leafDictKey_eq, leafDictKey_eq]
    show (osPathJoin (joinSegs (σ ++ ((k :: ρ₀) ++ [x]).dropLast))
        (((k :: ρ₀) ++ [x]).getLastD ""), _, _, _) = _
    rw [List.dropLast_concat, List.getLastD_concat, List.dropLast_concat,
      List.getLastD_concat, List.append_cons σ k ρ₀]

/-- The tree walk of `read_params_from_config` on clean trees: it succeeds
and produces exactly the decoded leaves, in tree order (sized induction,
entry and tree statements together). -/
theorem read_spec_sized : ∀ (n : Nat),
    (∀ (k : String) (yv : YVal) (root : String) (σ : List String),
      sizeOf yv ≤ n → CleanEntry (k, yv) → (pySplit root).drop 1 = σ →
      ∃ out, readParamsEntry k yv root = Except.ok out ∧
        out.map paramKey4 = (leavesOfVal k yv).map (leafDictKey σ))
    ∧ (∀ (t : YTree) (root : String) (σ : List String),
      sizeOf t ≤ n → CleanT t → (pySplit root).drop 1 = σ →
      ∃ out, readParamsFromConfig t root = Except.ok out ∧
        out.map paramKey4 = (leavesOfTree t).map (leafDictKey σ)) := by
  intro n
  induction n with
  | zero =>
      constructor
      · intro k yv root σ hs _ _
        exact absurd hs (by cases yv <;> simp)
      · intro t root σ hs _ _
        exact absurd hs (by cases t <;> simp)
  | succ n ih =>
      constructor
      · -- entry statement
        intro k yv root σ hs hc hσ
        cases yv with
        | prim v => cases hc
        | node sub =>
            cases hc with
            | leaf _ _ hg hwf =>
                obtain ⟨t, v, desc, hd, htv, htn⟩ := hwf
                subst hd
                refine ⟨[⟨k, ⟨v, DtypeF.ty t, joinSegs σ, desc⟩⟩], ?_, ?_⟩
                · show readParamsEntry k (.node _) root = _
                  unfold readParamsEntry
                  rw [isEndNodeY_of_wfLeafDict _ ⟨t, v, desc, rfl, htv, htn⟩]
                  show Except.bind (namedPyParamFromYDict k _
                      (joinSegs ((pySplit root).drop 1)))
                    (fun p => Except.ok [p]) = _
                  rw [hσ, namedPyParamFromYDict_shape k (joinSegs σ) t v desc htv htn]
                  rfl
                · unfold leavesOfVal
                  rw [if_pos (isEndNodeY_of_wfLeafDict _ ⟨t, v, desc, rfl, htv, htn⟩)]
                  rw [List.map_singleton, List.map_singleton,
                    show ([k] : List String) = [] ++ [k] from rfl,
                    leafDictKey_shape σ [] k t v desc htn]
                  show [(osPathJoin (joinSegs σ) k, v, DtypeF.ty t, desc)] = _
                  rw [List.append_nil]
            | sub _ _ hg hclean hnodup hnotend hleaves =>
                have hsize : sizeOf sub ≤ n := by
                  simp only [YVal.node.sizeOf_spec] at hs
                  omega
                have hσ' : (pySplit (joinSegs [root, k])).drop 1 = σ ++ [k] := by
                  rw [pySplit_root_ext root k hg.2.2, hσ]
                obtain ⟨out, hout, hmap⟩ := ih.2 sub (joinSegs [root, k])
                  (σ ++ [k]) hsize ⟨hclean, hnodup⟩ hσ'
                refine ⟨out, ?_, ?_⟩
                · show readParamsEntry k (.node sub) root = _
                  unfold readParamsEntry
                  rw [hnotend]
                  show readParamsFromConfig sub (joinSegs [root, k]) = _
                  exact hout
                · unfold leavesOfVal
                  rw [hnotend]
                  show out.map paramKey4
                    = ((leavesOfTree sub).map fun pd => (k :: pd.1, pd.2)).map
                        (leafDictKey σ)
                  rw [List.map_map, hmap]
                  apply List.map_congr_left
                  intro pd hpd
                  show leafDictKey (σ ++ [k]) pd
                    = leafDictKey σ (k :: pd.1, pd.2)
                  rw [leafDictKey_cons σ k pd.1 pd.2
                    (leavesOfTree_path_ne_nil sub pd hpd)]
      · -- tree statement
        intro t root σ hs hc hσ
        match t with
        | [] => exact ⟨[], rfl, rfl⟩
        | (k, yv) :: rest =>
            have hsy : sizeOf yv ≤ n := by
              simp only [List.cons.sizeOf_spec, Prod.mk.sizeOf_spec] at hs
              omega
            have hsr : sizeOf rest ≤ n := by
              simp only [List.cons.sizeOf_spec, Prod.mk.sizeOf_spec] at hs
              omega
            have hce : CleanEntry (k, yv) := hc.1 _ (List.mem_cons_self _ _)
            have hcr : CleanT rest :=
              ⟨fun e he => hc.1 e (List.mem_cons_of_mem _ he),
               (List.nodup_cons.1 (by
                 have := hc.2
                 rw [List.map_cons] at this
                 exact this)).2⟩
            obtain ⟨out1, hout1, hmap1⟩ := ih.1 k yv root σ hsy hce hσ
            obtain ⟨out2, hout2, hmap2⟩ := ih.2 rest root σ hsr hcr hσ
            refine ⟨out1 ++ out2, ?_, ?_⟩
            · show Except.bind (readParamsEntry k yv root)
                (fun here => Except.bind (readParamsFromConfig rest root)
                  (fun r2 => Except.ok (here ++ r2))) = _
              rw [hout1, hout2]
              rfl
            · rw [List.map_append, hmap1, hmap2,
                show leavesOfTree ((k, yv) :: rest)
                  = leavesOfVal k yv ++ leavesOfTree rest from rfl,
                List.map_append]

/-- A present key's `lookup` succeeds. -/
theorem lookup_isSome_of_mem_keys {β : Type} : ∀ (t : List (String × β)) (k : String),
    k ∈ t.map Prod.fst → (t.lookup k).isSome = true
  | [], k, h => by simp at h
  | (a, b) :: rest, k, h => by
      rw [lookup_cons']
      by_cases hk : k = a
      · rw [if_pos (by rw [hk]; exact beq_self_eq_true a)]
        rfl
      · rw [if_neg (by rw [beq_eq_false_iff_ne.2 hk]; exact Bool.false_ne_true)]
        apply lookup_isSome_of_mem_keys rest k
        rw [List.map_cons] at h
        rcases List.mem_cons.1 h with he | hm
        · exact absurd he hk
        · exact hm

/-- A key whose `lookup` misses is absent. -/
theorem not_mem_of_lookup_none {β : Type} (t : List (String × β)) (k : String)
    (h : t.lookup k = Option.none) : k ∉ t.map Prod.fst := by
  intro hm
  have := lookup_isSome_of_mem_keys t k hm
  rw [h] at this
  exact Bool.noConfusion this

/-- Leaves of a member entry are leaves of the tree. -/
theorem leavesOfVal_mem_tree : ∀ (t : YTree) (k : String) (yv : YVal),
    (k, yv) ∈ t → ∀ pd ∈ leavesOfVal k yv, pd ∈ leavesOfTree t
  | [], k, yv, hin => by simp at hin
  | (a, w) :: rest, k, yv, hin => by
      intro pd hpd
      rw [show leavesOfTree ((a, w) :: rest)
        = leavesOfVal a w ++ leavesOfTree rest from rfl]
      rcases List.mem_cons.1 hin with he | hm
      · apply List.mem_append_left
        rw [show a = k from congrArg Prod.fst he.symm,
          show w = yv from congrArg Prod.snd he.symm]
        exact hpd
      · exact List.mem_append_right _ (leavesOfVal_mem_tree rest k yv hm pd hpd)

/-- A clean entry always contributes a leaf whose path starts with its
key. -/
theorem cleanEntry_leaf_path (k : String) (yv : YVal) (h : CleanEntry (k, yv)) :
    ∃ pd ∈ leavesOfVal k yv, ∃ ρ', pd.1 = k :: ρ' := by
  cases h with
  | leaf _ d hg hwf =>
      refine ⟨([k], d), ?_, [], rfl⟩
      unfold leavesOfVal
      rw [if_pos (isEndNodeY_of_wfLeafDict d hwf)]
      exact List.mem_singleton.2 rfl
  | sub _ d hg hclean hnodup hnotend hleaves =>
      match hl : leavesOfTree d with
      | [] => exact absurd hl hleaves
      | pd₀ :: rest =>
          refine ⟨(k :: pd₀.1, pd₀.2), ?_, pd₀.1, rfl⟩
          unfold leavesOfVal
          rw [hnotend]
          show (k :: pd₀.1, pd₀.2) ∈ (leavesOfTree d).map _
          rw [hl]
          exact List.mem_cons_self _ _

/-- Replacing a middle run by a permuted-in new head. -/
theorem perm_insert_middle {α : Type} (A B X X' : List α) (x : α)
    (h : X'.Perm (x :: X)) : (A ++ (X' ++ B)).Perm (x :: (A ++ (X ++ B))) :=
  List.Perm.trans (List.Perm.append_left A (h.append_right B)) List.perm_middle

/-- The keys of a middle overwrite are unchanged. -/
theorem keys_middle_set {β : Type} (t₁ t₂ : List (String × β)) (k : String)
    (v w : β) :
    (t₁ ++ (k, v) :: t₂).map Prod.fst = (t₁ ++ (k, w) :: t₂).map Prod.fst := by
  simp

/-- The parameter name of a well-formed parameter is a good document
key. -/
theorem goodKey_name (p : NamedPyParam) (hw : WfParamC1 p) : GoodKey p.name := by
  have hdec := fsegs_decomp p hw
  have hmem : p.name ∈ pySplit p.full_name := by
    rw [hdec]
    exact List.mem_append_right _ (List.mem_singleton.2 rfl)
  exact ⟨(hw.2.2.2.2 p.name hmem).1, (hw.2.2.2.2 p.name hmem).2, hw.2.2.2.1⟩

/-- Clean entries never use reserved keys. -/
theorem not_mem_keys_of_clean_reserved (d : YTree) (h : ∀ e ∈ d, CleanEntry e)
    (r : String) (hr : r ∈ reservedLeafKeys) : r ∉ d.map Prod.fst := by
  intro hmem
  rcases List.mem_map.1 hmem with ⟨⟨k, yv⟩, hin, hk⟩
  have hg := (cleanEntry_goodKey k yv (h _ hin)).1
  apply hg.2.1
  rw [show (k : String) = r from hk]
  exact hr

/-- A good key has positive length. -/
theorem goodKey_length_pos (k : String) (h : GoodKey k) : k.length > 0 := by
  show 0 < k.data.length
  exact List.length_pos.2 (fun hd => h.1 (String.ext hd))

/-- The record entry filed for a parameter is clean. -/
theorem leafEntry_clean (p : NamedPyParam) (hw : WfParamC1 p) :
    CleanEntry (p.name, .node (leafDictOf p)) :=
  CleanEntry.leaf p.name (leafDictOf p) (goodKey_name p hw) (wfLeafDict_leafDictOf p hw)

/-- Leaves of the singleton record tree for a parameter. -/
theorem leaves_leafEntry (p : NamedPyParam) (hw : WfParamC1 p) :
    leavesOfTree [(p.name, .node (leafDictOf p))] = [([p.name], leafDictOf p)] := by
  show leavesOfVal p.name (.node (leafDictOf p)) ++ [] = _
  unfold leavesOfVal
  rw [if_pos (isEndNodeY_of_wfLeafDict _ (wfLeafDict_leafDictOf p hw)),
    List.append_nil]

/-- The parameter name never collides with `value`. -/
theorem name_ne_value (p : NamedPyParam) (hw : WfParamC1 p) :
    "value" ∉ ([p.name] : List String) := by
  intro hm
  have he : "value" = p.name := List.mem_singleton.1 hm
  exact (goodKey_name p hw).2.1
    (he ▸ (by simp [reservedLeafKeys] : "value" ∈ reservedLeafKeys))

/-- The singleton record tree is not an end node. -/
theorem leafEntryTree_not_end (p : NamedPyParam) (hw : WfParamC1 p) :
    isEndNodeY [(p.name, .node (leafDictOf p))] = false := by
  apply isEndNodeY_false_of_no_value
  rw [List.map_singleton]
  exact name_ne_value p hw

/-- `insert_node` on a non-empty good segment path into a clean tree with
no leaf on or under the new path: it succeeds, keeps the tree clean, and
adds exactly the parameter's record leaf at the path extended by its
name. -/
theorem insert_walk : ∀ (ρ : List String) (p : NamedPyParam) (t : YTree),
    (∀ s ∈ ρ, GoodKey s) → WfParamC1 p → CleanT t →
    (∀ pd ∈ leavesOfTree t,
      ¬ (pd.1 <+: ρ ++ [p.name]) ∧ ¬ ((ρ ++ [p.name]) <+: pd.1)) →
    ρ ≠ [] →
    ∃ t', insertNodeSegs p ρ t = Except.ok t' ∧ CleanT t' ∧
      (leavesOfTree t').Perm ((ρ ++ [p.name], leafDictOf p) :: leavesOfTree t)
  | [], _, _, _, _, _, _, hne => absurd rfl hne
  | [sc], p, t, hρ, hw, hc, hfr, _ => by
      have hsc : GoodKey sc := hρ sc (List.mem_singleton.2 rfl)
      have hgn : GoodKey p.name := goodKey_name p hw
      unfold insertNodeSegs
      rw [if_pos (goodKey_length_pos sc hsc)]
      cases hlk : t.lookup sc with
      | none =>
          have hnm : sc ∉ t.map Prod.fst := not_mem_of_lookup_none t sc hlk
          simp only [hlk, Option.isSome_none, Bool.false_eq_true, if_false]
          rw [pyDictSet_of_not_mem t sc (.node []) hnm,
            lookup_middle t [] sc (.node []) hnm]
          dsimp only
          rw [toDictY_eq p hw, except_ok_bind]
          rw [show pyDictSet ([] : YTree) p.name (YVal.node (leafDictOf p))
              = [(p.name, YVal.node (leafDictOf p))] from rfl,
            pyDictSet_middle t [] sc (YVal.node [])
              (YVal.node [(p.name, YVal.node (leafDictOf p))]) hnm]
          refine ⟨_, rfl, ⟨?_, ?_⟩, ?_⟩
          · intro e he
            rcases List.mem_append.1 he with hin | hin
            · exact hc.1 e hin
            · rcases List.mem_singleton.1 hin with rfl
              refine CleanEntry.sub sc _ hsc ?_ ?_ ?_ ?_
              · intro e' he'
                rcases List.mem_singleton.1 he' with rfl
                exact leafEntry_clean p hw
              · simp
              · exact leafEntryTree_not_end p hw
              · rw [leaves_leafEntry p hw]
                simp
          · rw [List.map_append, List.map_singleton, List.nodup_append]
            refine ⟨hc.2, List.nodup_singleton sc, ?_⟩
            intro a ha hb
            rw [List.mem_singleton.1 hb] at ha
            exact hnm ha
          · rw [leavesOfTree_append]
            have hlv : leavesOfTree
                [(sc, YVal.node [(p.name, YVal.node (leafDictOf p))])]
                = [([sc, p.name], leafDictOf p)] := by
              show leavesOfVal sc (YVal.node [(p.name, YVal.node (leafDictOf p))])
                ++ [] = _
              unfold leavesOfVal
              rw [leafEntryTree_not_end p hw]
              simp only [Bool.false_eq_true, if_false]
              rw [leaves_leafEntry p hw, List.map_singleton, List.append_nil]
            rw [hlv]
            exact List.perm_append_singleton _ _
      | some yv =>
          have hmem := mem_of_lookup t sc yv hlk
          have hce := hc.1 (sc, yv) hmem
          cases hce with
          | leaf _ d hg hwfd =>
              exfalso
              have hleaf : ([sc], d) ∈ leavesOfTree t := by
                apply leavesOfVal_mem_tree t sc (.node d) hmem
                unfold leavesOfVal
                rw [if_pos (isEndNodeY_of_wfLeafDict d hwfd)]
                exact List.mem_singleton.2 rfl
              exact (hfr _ hleaf).1 ⟨[p.name], rfl⟩
          | sub _ d hg hcln hnod hnotend hlvs =>
              simp only [hlk, Option.isSome_some, if_true]
              rw [toDictY_eq p hw, except_ok_bind]
              have hpn : p.name ∉ d.map Prod.fst := by
                intro hm
                have hsome := lookup_isSome_of_mem_keys d p.name hm
                cases hw' : d.lookup p.name with
                | none =>
                    rw [hw'] at hsome
                    exact Bool.noConfusion hsome
                | some w =>
                    have hmem2 := mem_of_lookup d p.name w hw'
                    obtain ⟨pd, hpd, ρ', hρ'⟩ :=
                      cleanEntry_leaf_path p.name w (hcln _ hmem2)
                    have h1 : pd ∈ leavesOfTree d :=
                      leavesOfVal_mem_tree d p.name w hmem2 pd hpd
                    have h2 : (sc :: pd.1, pd.2) ∈ leavesOfVal sc (.node d) := by
                      unfold leavesOfVal
                      rw [hnotend]
                      exact List.mem_map.2 ⟨pd, h1, rfl⟩
                    have h3 : (sc :: pd.1, pd.2) ∈ leavesOfTree t :=
                      leavesOfVal_mem_tree t sc (.node d) hmem _ h2
                    apply (hfr _ h3).2
                    show [sc] ++ [p.name] <+: sc :: pd.1
                    rw [hρ']
                    exact ⟨ρ', rfl⟩
              rw [pyDictSet_of_not_mem d p.name (.node (leafDictOf p)) hpn]
              obtain ⟨t₁, t₂, hsplit, hn1, hn2⟩ :=
                lookup_split_of_nodup t sc (.node d) hc.2 hlk
              rw [hsplit, pyDictSet_middle t₁ t₂ sc (YVal.node d)
                (YVal.node (d ++ [(p.name, YVal.node (leafDictOf p))])) hn1]
              have hvnew : "value"
                  ∉ (d ++ [(p.name, YVal.node (leafDictOf p))]).map Prod.fst := by
                rw [List.map_append, List.map_singleton]
                intro hm
                rcases List.mem_append.1 hm with hin | hin
                · exact not_mem_keys_of_clean_reserved d hcln "value"
                    (by simp [reservedLeafKeys]) hin
                · exact name_ne_value p hw hin
              refine ⟨_, rfl, ⟨?_, ?_⟩, ?_⟩
              · intro e he
                rcases List.mem_append.1 he with hin | hin
                · exact hc.1 e (by rw [hsplit]; exact List.mem_append_left _ hin)
                · rcases List.mem_cons.1 hin with rfl | hin
                  · refine CleanEntry.sub sc _ hsc ?_ ?_ ?_ ?_
                    · intro e' he'
                      rcases List.mem_append.1 he' with hin' | hin'
                      · exact hcln e' hin'
                      · rcases List.mem_singleton.1 hin' with rfl
                        exact leafEntry_clean p hw
                    · rw [List.map_append, List.map_singleton, List.nodup_append]
                      refine ⟨hnod, List.nodup_singleton _, ?_⟩
                      intro a ha hb
                      rw [List.mem_singleton.1 hb] at ha
                      exact hpn ha
                    · exact isEndNodeY_false_of_no_value _ hvnew
                    · rw [leavesOfTree_append, leaves_leafEntry p hw]
                      simp
                  · exact hc.1 e (by
                      rw [hsplit]
                      exact List.mem_append_right _ (List.mem_cons_of_mem _ hin))
              · rw [keys_middle_set t₁ t₂ sc _ (YVal.node d), ← hsplit]
                exact hc.2
              · rw [leavesOfTree_append, leavesOfTree_append,
                  show leavesOfTree ((sc, YVal.node
                      (d ++ [(p.name, YVal.node (leafDictOf p))])) :: t₂)
                    = leavesOfVal sc (YVal.node
                        (d ++ [(p.name, YVal.node (leafDictOf p))]))
                      ++ leavesOfTree t₂ from rfl,
                  show leavesOfTree ((sc, YVal.node d) :: t₂)
                    = leavesOfVal sc (YVal.node d) ++ leavesOfTree t₂ from rfl]
                have hX' : leavesOfVal sc (YVal.node
                    (d ++ [(p.name, YVal.node (leafDictOf p))]))
                    = (leavesOfTree d).map (fun pd => (sc :: pd.1, pd.2))
                      ++ [([sc, p.name], leafDictOf p)] := by
                  unfold leavesOfVal
                  rw [isEndNodeY_false_of_no_value _ hvnew]
                  simp only [Bool.false_eq_true, if_false]
                  rw [leavesOfTree_append, leaves_leafEntry p hw, List.map_append,
                    List.map_singleton]
                have hX : leavesOfVal sc (YVal.node d)
                    = (leavesOfTree d).map (fun pd => (sc :: pd.1, pd.2)) := by
                  unfold leavesOfVal
                  rw [hnotend]
                  simp only [Bool.false_eq_true, if_false]
                rw [hX', hX]
                exact perm_insert_middle _ _ _ _ _
                  (List.perm_append_singleton _ _)
  | s₁ :: s₂ :: rest, p, t, hρ, hw, hc, hfr, _ => by
      have hs₁ : GoodKey s₁ := hρ s₁ (List.mem_cons_self _ _)
      have hρt : ∀ s ∈ s₂ :: rest, GoodKey s :=
        fun s hs => hρ s (List.mem_cons_of_mem _ hs)
      unfold insertNodeSegs
      cases hlk : t.lookup s₁ with
      | none =>
          have hnm : s₁ ∉ t.map Prod.fst := not_mem_of_lookup_none t s₁ hlk
          obtain ⟨sub', hins, hcs', hperm'⟩ :=
            insert_walk (s₂ :: rest) p [] hρt hw ⟨by simp, by simp⟩
              (fun pd hpd => absurd hpd (by
                rw [show leavesOfTree [] = [] from rfl]
                exact List.not_mem_nil pd))
              (List.cons_ne_nil _ _)
          simp only [hlk, Option.isSome_none, Bool.false_eq_true, if_false]
          rw [pyDictSet_of_not_mem t s₁ (.node []) hnm,
            lookup_middle t [] s₁ (.node []) hnm]
          dsimp only
          rw [hins, except_ok_bind]
          rw [pyDictSet_middle t [] s₁ (YVal.node []) (YVal.node sub') hnm]
          have hlen : leavesOfTree sub' ≠ [] := by
            intro h0
            have := hperm'.length_eq
            rw [h0] at this
            simp at this
          have hend' : isEndNodeY sub' = false :=
            isEndNodeY_false_of_clean sub' hcs'.1
          refine ⟨_, rfl, ⟨?_, ?_⟩, ?_⟩
          · intro e he
            rcases List.mem_append.1 he with hin | hin
            · exact hc.1 e hin
            · rcases List.mem_singleton.1 hin with rfl
              exact CleanEntry.sub s₁ sub' hs₁ hcs'.1 hcs'.2 hend' hlen
          · rw [List.map_append, List.map_singleton, List.nodup_append]
            refine ⟨hc.2, List.nodup_singleton _, ?_⟩
            intro a ha hb
            rw [List.mem_singleton.1 hb] at ha
            exact hnm ha
          · rw [leavesOfTree_append,
              show leavesOfTree [(s₁, YVal.node sub')]
                = leavesOfVal s₁ (YVal.node sub') ++ [] from rfl,
              List.append_nil]
            have hXv : leavesOfVal s₁ (YVal.node sub')
                = (leavesOfTree sub').map (fun pd => (s₁ :: pd.1, pd.2)) := by
              unfold leavesOfVal
              rw [hend']
              simp only [Bool.false_eq_true, if_false]
            rw [hXv]
            have hm1 : ((leavesOfTree sub').map
                (fun pd => (s₁ :: pd.1, pd.2))).Perm
                  [((s₁ :: s₂ :: rest) ++ [p.name], leafDictOf p)] := by
              have := hperm'.map (fun pd => (s₁ :: pd.1, pd.2))
              rw [List.map_cons] at this
              exact this
            exact List.Perm.trans (List.Perm.append_left _ hm1)
              (List.perm_append_singleton _ _)
      | some yv =>
          have hmem := mem_of_lookup t s₁ yv hlk
          have hce := hc.1 (s₁, yv) hmem
          cases hce with
          | leaf _ d hg hwfd =>
              exfalso
              have hleaf : ([s₁], d) ∈ leavesOfTree t := by
                apply leavesOfVal_mem_tree t s₁ (.node d) hmem
                unfold leavesOfVal
                rw [if_pos (isEndNodeY_of_wfLeafDict d hwfd)]
                exact List.mem_singleton.2 rfl
              exact (hfr _ hleaf).1 (List.cons_prefix_cons.2 ⟨rfl, List.nil_prefix⟩)
          | sub _ d hg hcln hnod hnotend hlvs =>
              have hfrd : ∀ pd ∈ leavesOfTree d,
                  ¬ (pd.1 <+: (s₂ :: rest) ++ [p.name])
                  ∧ ¬ (((s₂ :: rest) ++ [p.name]) <+: pd.1) := by
                intro pd hpd
                have h2 : (s₁ :: pd.1, pd.2) ∈ leavesOfVal s₁ (.node d) := by
                  unfold leavesOfVal
                  rw [hnotend]
                  exact List.mem_map.2 ⟨pd, hpd, rfl⟩
                have h3 : (s₁ :: pd.1, pd.2) ∈ leavesOfTree t :=
                  leavesOfVal_mem_tree t s₁ (.node d) hmem _ h2
                constructor
                · intro hpre
                  exact (hfr _ h3).1 (List.cons_prefix_cons.2 ⟨rfl, hpre⟩)
                · intro hpre
                  exact (hfr _ h3).2 (List.cons_prefix_cons.2 ⟨rfl, hpre⟩)
              obtain ⟨sub', hins, hcs', hperm'⟩ :=
                insert_walk (s₂ :: rest) p d hρt hw ⟨hcln, hnod⟩ hfrd
                  (List.cons_ne_nil _ _)
              simp only [hlk, Option.isSome_some, if_true]
              rw [hins, except_ok_bind]
              obtain ⟨t₁, t₂, hsplit, hn1, hn2⟩ :=
                lookup_split_of_nodup t s₁ (.node d) hc.2 hlk
              rw [hsplit, pyDictSet_middle t₁ t₂ s₁ (YVal.node d) (YVal.node sub') hn1]
              have hlen : leavesOfTree sub' ≠ [] := by
                intro h0
                have := hperm'.length_eq
                rw [h0] at this
                simp at this
              have hend' : isEndNodeY sub' = false :=
                isEndNodeY_false_of_clean sub' hcs'.1
              refine ⟨_, rfl, ⟨?_, ?_⟩, ?_⟩
              · intro e he
                rcases List.mem_append.1 he with hin | hin
                · exact hc.1 e (by rw [hsplit]; exact List.mem_append_left _ hin)
                · rcases List.mem_cons.1 hin with rfl | hin
                  · exact CleanEntry.sub s₁ sub' hs₁ hcs'.1 hcs'.2 hend' hlen
                  · exact hc.1 e (by
                      rw [hsplit]
                      exact List.mem_append_right _ (List.mem_cons_of_mem _ hin))
              · rw [keys_middle_set t₁ t₂ s₁ _ (YVal.node d), ← hsplit]
                exact hc.2
              · rw [leavesOfTree_append, leavesOfTree_append,
                  show leavesOfTree ((s₁, YVal.node sub') :: t₂)
                    = leavesOfVal s₁ (YVal.node sub') ++ leavesOfTree t₂ from rfl,
                  show leavesOfTree ((s₁, YVal.node d) :: t₂)
                    = leavesOfVal s₁ (YVal.node d) ++ leavesOfTree t₂ from rfl]
                have hXv : leavesOfVal s₁ (YVal.node sub')
                    = (leavesOfTree sub').map (fun pd => (s₁ :: pd.1, pd.2)) := by
                  unfold leavesOfVal
                  rw [hend']
                  simp only [Bool.false_eq_true, if_false]
                have hX : leavesOfVal s₁ (YVal.node d)
                    = (leavesOfTree d).map (fun pd => (s₁ :: pd.1, pd.2)) := by
                  unfold leavesOfVal
                  rw [hnotend]
                  simp only [Bool.false_eq_true, if_false]
                rw [hXv, hX]
                apply perm_insert_middle
                have := hperm'.map (fun pd => (s₁ :: pd.1, pd.2))
                rw [List.map_cons] at this
                exact this

/-- Dropping the last element of an append with non-empty right part. -/
theorem dropLast_append_ne_nil {α : Type} (l u : List α) (hu : u ≠ []) :
    (l ++ u).dropLast = l ++ u.dropLast := by
  rcases List.eq_nil_or_concat u with rfl | ⟨u₀, x, hu₀⟩
  · exact absurd rfl hu
  · rw [List.concat_eq_append] at hu₀
    subst hu₀
    rw [← List.append_assoc, List.dropLast_concat, List.dropLast_concat]

/-- A proper prefix is a prefix of the dropLast. -/
theorem proper_isPrefix_dropLast {α : Type} (l₁ l₂ : List α)
    (h : l₁ <+: l₂) (hne : l₁ ≠ l₂) : l₁ <+: l₂.dropLast := by
  obtain ⟨u, hu⟩ := h
  have hu' : u ≠ [] := by
    rintro rfl
    rw [List.append_nil] at hu
    exact hne hu
  rw [← hu, dropLast_append_ne_nil l₁ u hu']
  exact ⟨u.dropLast, rfl⟩

/-- One insertion step of `params_to_yaml_config` on a clean tree with
no leaf path comparable to the parameter's: it files the parameter's leaf
at its full path. -/
theorem insert_step (p : NamedPyParam) (t : YTree) (hw : WfParamC1 p)
    (hc : CleanT t)
    (hfr : ∀ pd ∈ leavesOfTree t,
      ¬ (pd.1 <+: pySplit p.full_name) ∧ ¬ (pySplit p.full_name <+: pd.1)) :
    ∃ t', insertNodeSegs p (pySplit (joinSegs ((pySplit p.full_name).dropLast))) t
        = Except.ok t'
      ∧ CleanT t' ∧
      (leavesOfTree t').Perm ((pySplit p.full_name, leafDictOf p) :: leavesOfTree t) := by
  have hdec := fsegs_decomp p hw
  have hgood : ∀ x ∈ (pySplit p.full_name).dropLast, GoodKey x := by
    intro x hx
    have hmem : x ∈ pySplit p.full_name := (List.dropLast_sublist _).subset hx
    exact ⟨(hw.2.2.2.2 x hmem).1, (hw.2.2.2.2 x hmem).2,
      pySplit_no_slash p.full_name x hmem⟩
  cases hρ : (pySplit p.full_name).dropLast with
  | nil =>
      have hsegs : pySplit p.full_name = [p.name] := by
        rw [hdec, hρ]
        rfl
      show ∃ t', insertNodeSegs p [""] t = _ ∧ _ ∧ _
      unfold insertNodeSegs
      rw [if_neg (by decide : ¬ ("" : String).length > 0), toDictY_eq p hw,
        except_ok_bind]
      have hnm : p.name ∉ t.map Prod.fst := by
        intro hm
        have hsome := lookup_isSome_of_mem_keys t p.name hm
        cases hw' : t.lookup p.name with
        | none =>
            rw [hw'] at hsome
            exact Bool.noConfusion hsome
        | some w =>
            have hmem2 := mem_of_lookup t p.name w hw'
            obtain ⟨pd, hpd, ρ', hρ'⟩ :=
              cleanEntry_leaf_path p.name w (hc.1 _ hmem2)
            have h1 : pd ∈ leavesOfTree t :=
              leavesOfVal_mem_tree t p.name w hmem2 pd hpd
            apply (hfr _ h1).2
            rw [hsegs, hρ']
            exact List.cons_prefix_cons.2 ⟨rfl, List.nil_prefix⟩
      rw [pyDictSet_of_not_mem t p.name (.node (leafDictOf p)) hnm]
      refine ⟨_, rfl, ⟨?_, ?_⟩, ?_⟩
      · intro e he
        rcases List.mem_append.1 he with hin | hin
        · exact hc.1 e hin
        · rcases List.mem_singleton.1 hin with rfl
          exact leafEntry_clean p hw
      · rw [List.map_append, List.map_singleton, List.nodup_append]
        refine ⟨hc.2, List.nodup_singleton _, ?_⟩
        intro a ha hb
        rw [List.mem_singleton.1 hb] at ha
        exact hnm ha
      · rw [leavesOfTree_append, leaves_leafEntry p hw, hsegs]
        exact List.perm_append_singleton _ _
  | cons a as =>
      rw [pySplit_joinSegs (a :: as) (List.cons_ne_nil a as)
        (fun x hx => (hgood x (by rw [hρ]; exact hx)).2.2)]
      have hfr' : ∀ pd ∈ leavesOfTree t,
          ¬ (pd.1 <+: (a :: as) ++ [p.name]) ∧ ¬ (((a :: as) ++ [p.name]) <+: pd.1) := by
        intro pd hpd
        have := hfr pd hpd
        rw [hdec, hρ] at this
        exact this
      obtain ⟨t', h1, h2, h3⟩ := insert_walk (a :: as) p t
        (fun s hs => hgood s (by rw [hρ]; exact hs)) hw hc hfr'
        (List.cons_ne_nil a as)
      refine ⟨t', h1, h2, ?_⟩
      rw [hdec, hρ]
      exact h3

/-- The insertion fold of `params_to_yaml_config` over the remaining
parameters, on a clean tree already holding the leaves of the processed
ones. -/
theorem flatten_fold : ∀ (todo done : List NamedPyParam) (t : YTree),
    (∀ p ∈ done ++ todo, WfParamC1 p) →
    ((done ++ todo).map NamedPyParam.full_name).Nodup →
    NoShadowC1 (done ++ todo) →
    CleanT t →
    (leavesOfTree t).Perm (done.map leafFor) →
    ∃ t', (todo.map (fun p => (p.full_name, p))).foldlM
        (fun tree kv =>
          let head := joinSegs ((pySplit kv.1).dropLast)
          insertNodeSegs kv.2 (pySplit head) tree) t
      = Except.ok t' ∧ CleanT t' ∧
      (leavesOfTree t').Perm ((done ++ todo).map leafFor)
  | [], done, t, _, _, _, hc, hperm => by
      rw [List.append_nil]
      exact ⟨t, rfl, hc, hperm⟩
  | p :: todo', done, t, hwf, hnd, hsh, hc, hperm => by
      have hwp : WfParamC1 p := hwf p (by
        exact List.mem_append_right _ (List.mem_cons_self _ _))
      have hfr : ∀ pd ∈ leavesOfTree t,
          ¬ (pd.1 <+: pySplit p.full_name)
          ∧ ¬ (pySplit p.full_name <+: pd.1) := by
        intro pd hpd
        have hpd' : pd ∈ done.map leafFor := hperm.subset hpd
        rcases List.mem_map.1 hpd' with ⟨q, hq, rfl⟩
        have hwq : WfParamC1 q := hwf q (List.mem_append_left _ hq)
        have hqp : q.full_name ≠ p.full_name := by
          intro he
          rw [List.map_append, List.nodup_append] at hnd
          exact hnd.2.2 (List.mem_map.2 ⟨q, hq, rfl⟩)
            (by rw [he, List.map_cons]; exact List.mem_cons_self _ _)
        have hqmem : q ∈ done ++ p :: todo' := List.mem_append_left _ hq
        have hpmem : p ∈ done ++ p :: todo' :=
          List.mem_append_right _ (List.mem_cons_self _ _)
        constructor
        · intro hpre
          have hne : pySplit q.full_name ≠ pySplit p.full_name := by
            intro he
            apply hqp
            rw [← joinSegs_pySplit q.full_name, ← joinSegs_pySplit p.full_name, he]
          exact hsh q hqmem p hpmem
            (proper_isPrefix_dropLast _ _ hpre hne)
        · intro hpre
          have hne : pySplit p.full_name ≠ pySplit q.full_name := by
            intro he
            apply hqp
            rw [← joinSegs_pySplit q.full_name, ← joinSegs_pySplit p.full_name, he]
          exact hsh p hpmem q hqmem
            (proper_isPrefix_dropLast _ _ hpre hne)
      obtain ⟨t₁, h1, hc₁, hperm₁⟩ := insert_step p t hwp hc hfr
      have hassoc : done ++ p :: todo' = (done ++ [p]) ++ todo' := by
        rw [List.append_assoc]
        rfl
      obtain ⟨t', h2, hc', hperm'⟩ := flatten_fold todo' (done ++ [p]) t₁
        (by rw [← hassoc]; exact hwf)
        (by rw [← hassoc]; exact hnd)
        (by rw [← hassoc]; exact hsh)
        hc₁
        (by
          rw [List.map_append, List.map_singleton]
          exact hperm₁.trans ((hperm.cons _).trans
            (List.perm_append_singleton _ _).symm))
      refine ⟨t', ?_, hc', by rw [hassoc]; exact hperm'⟩
      rw [List.map_cons, List.foldlM_cons]
      show (let head := joinSegs ((pySplit p.full_name).dropLast)
        insertNodeSegs p (pySplit head) t) >>= _ = _
      show insertNodeSegs p (pySplit (joinSegs ((pySplit p.full_name).dropLast))) t
        >>= _ = _
      rw [h1, except_ok_bind]
      exact h2

/-- `params_to_yaml_config` on well-formed, distinct, shadow-free
parameters: it succeeds with a clean tree whose leaves are exactly the
parameters' record leaves, up to regrouping. -/
theorem paramsToYamlTree_spec (l : List NamedPyParam)
    (hw : ∀ p ∈ l, WfParamC1 p)
    (hd : (l.map NamedPyParam.full_name).Nodup)
    (hs : NoShadowC1 l) :
    ∃ tree, paramsToYamlTree l = Except.ok tree ∧ CleanT tree ∧
      (leavesOfTree tree).Perm (l.map leafFor) := by
  unfold paramsToYamlTree
  rw [show (l.foldl (fun d p => pyDictSet d p.full_name p) [])
      = configParamsFullNameDict l from rfl,
    configDict_eq_map_of_nodup l hd]
  obtain ⟨t', h1, h2, h3⟩ := flatten_fold l [] []
    (by rw [List.nil_append]; exact hw)
    (by rw [List.nil_append]; exact hd)
    (by rw [List.nil_append]; exact hs)
    ⟨by intro e he; exact absurd he (List.not_mem_nil e), by simp⟩
    (by rw [List.map_nil]; rfl)
  rw [List.nil_append] at h3
  exact ⟨t', h1, h2, h3⟩

/-- C1: the round-trip claim as stated (element-by-element equality of the
full_name/value/dtype/description quadruples after flatten + unflatten) is
false: regrouping by scope reorders parameters.  On the unit `c1Unit`
(`x` and `z` in scope `"a"` interleaved with root-level `y`), extraction
yields full_names `a/x, y, a/z` but the round trip returns `a/x, a/z, y`. -/
theorem roundtrip_reorders_parameters :
    ∃ ps tree out,
      getAllPyparamsFromSource "PyParam" c1Unit = Except.ok ps
      ∧ paramsToYamlTree ps = Except.ok tree
      ∧ readParamsFromConfig tree "" = Except.ok out
      ∧ ps.map NamedPyParam.full_name = ["a/x", "y", "a/z"]
      ∧ out.map NamedPyParam.full_name = ["a/x", "a/z", "y"]
      ∧ out.map paramKey4 ≠ ps.map paramKey4 := by
  refine ⟨_, _, _, rfl, rfl, rfl, rfl, rfl, by decide⟩

/-- C1 (amended): for parameters with resolved serializable dtypes,
non-empty slash-free reserved-free path segments, pairwise-distinct
full_names, and no full path being an ancestor scope of another,
flattening to the document tree and reading it back succeeds and yields
the same parameters — same full_name, value, declared type and
description — up to reordering (a permutation of the key quadruples). -/
theorem roundtrip_permutes_key_quadruples (l : List NamedPyParam)
    (hw : ∀ p ∈ l, WfParamC1 p)
    (hd : (l.map NamedPyParam.full_name).Nodup)
    (hs : NoShadowC1 l) :
    ∃ tree out, paramsToYamlTree l = Except.ok tree
      ∧ readParamsFromConfig tree "" = Except.ok out
      ∧ (out.map paramKey4).Perm (l.map paramKey4) := by
  obtain ⟨tree, h1, hcl, hlv⟩ := paramsToYamlTree_spec l hw hd hs
  obtain ⟨out, h2, hmap⟩ :=
    (read_spec_sized (sizeOf tree)).2 tree "" [] le_rfl hcl rfl
  refine ⟨tree, out, h1, h2, ?_⟩
  rw [hmap]
  have h2' : (l.map leafFor).map (leafDictKey []) = l.map paramKey4 := by
    rw [List.map_map]
    exact List.map_congr_left (fun p hp => leafDictKey_param p (hw p hp))
  rw [← h2']
  exact hlv.map _

/-- Witness for the amended C1 round trip at the `c1Unit` parameter list. -/
theorem roundtrip_permutes_key_quadruples_witness :
    ∃ tree out,
      paramsToYamlTree
        [⟨"x", ⟨.int 1, .ty .int, "a", ""⟩⟩, ⟨"y", ⟨.int 2, .ty .int, "", ""⟩⟩,
         ⟨"z", ⟨.int 3, .ty .int, "a", ""⟩⟩] = Except.ok tree
      ∧ readParamsFromConfig tree "" = Except.ok out
      ∧ (out.map paramKey4).Perm
          (([⟨"x", ⟨.int 1, .ty .int, "a", ""⟩⟩,
             ⟨"y", ⟨.int 2, .ty .int, "", ""⟩⟩,
             ⟨"z", ⟨.int 3, .ty .int, "a", ""⟩⟩] : List NamedPyParam).map paramKey4) :=
  roundtrip_permutes_key_quadruples _
    (by unfold WfParamC1; decide)
    (by decide)
    (by unfold NoShadowC1; decide)

/-- C9: with version validation enabled, compilation fails when the source
lacks a located `"version"` node; fails when the config list lacks a param
named `"version"`; with both present (the config side read from the
`{name: value}` dict, the source side re-extracted from the located node)
it fails with a version-mismatch error exactly when the two values are not
Python-equal, and when they are equal the version check passes and
compilation behaves exactly as with validation disabled — no version
error is raised. -/
theorem compile_validates_version (body : List PStmt)
    (config : List NamedPyParam) (op : String)
    (nn : List (String × FoundNode))
    (m : List ((List Nat × List Nat) × NamedPyParam))
    (hnn : getSourceParamsAssignments op body = .ok nn)
    (hm : nodeToConfigParamMap nn config = .ok m) :
    (nn.lookup versionParamKeyName = Option.none →
      compileSourceCodeFromConfigsList body config op true
        = .error .versionSourceMissing)
    ∧ (∀ vn, nn.lookup versionParamKeyName = some vn →
        config.any (fun p => p.name = versionParamKeyName) = false →
        compileSourceCodeFromConfigsList body config op true
          = .error .versionConfigMissing)
    ∧ (∀ vn cv sp, nn.lookup versionParamKeyName = some vn →
        config.any (fun p => p.name = versionParamKeyName) = true →
        (config.foldl (fun d p => pyDictSet d p.name p.value) []).lookup
            versionParamKeyName = some cv →
        NamedPyParam.fromFoundNode vn = .ok sp →
        (pyEqB cv sp.param.value = false →
          compileSourceCodeFromConfigsList body config op true
            = .error (.versionMismatch cv sp.param.value))
        ∧ (pyEqB cv sp.param.value = true →
            validateVersionCheck nn config = .ok ()
            ∧ compileSourceCodeFromConfigsList body config op true
              = compileSourceCodeFromConfigsList body config op false)) := by
  refine ⟨?_, ?_, ?_⟩
  · intro hv
    simp [compileSourceCodeFromConfigsList, hnn, hm, validateVersionCheck, hv,
      except_ok_bind, except_error_bind]
  · intro vn hv hc
    simp [compileSourceCodeFromConfigsList, hnn, hm, validateVersionCheck, hv, hc,
      except_ok_bind, except_error_bind]
  · intro vn cv sp hv hc hcv hsp
    constructor
    · intro hne
      simp [compileSourceCodeFromConfigsList, hnn, hm, validateVersionCheck, hv,
        hc, hcv, hsp, hne, except_ok_bind, except_error_bind]
    · intro heq
      constructor
      · simp [validateVersionCheck, hv, hc, hcv, hsp, heq, except_ok_bind, except_error_bind]
      · simp [compileSourceCodeFromConfigsList, hnn, hm, validateVersionCheck,
          hv, hc, hcv, hsp, heq, except_ok_bind, except_error_bind]

theorem compile_validates_version_witness :
    (getSourceParamsAssignments "PyParam" c9Unit
      = .ok [("version", ⟨["version"], true,
                .call (.name "PyParam") [.num 3] [], ([0], [])⟩),
             ("x", ⟨["x"], true,
                .call (.name "PyParam") [.num 1] [], ([1], [])⟩)])
    ∧ validateVersionCheck
        [("version", ⟨["version"], true,
            .call (.name "PyParam") [.num 3] [], ([0], [])⟩),
         ("x", ⟨["x"], true,
            .call (.name "PyParam") [.num 1] [], ([1], [])⟩)]
        [⟨"version", { value := .int 3, dtype := .ty .int }⟩,
         ⟨"x", { value := .int 1, dtype := .ty .int }⟩] = .ok ()
    ∧ compileSourceCodeFromConfigsList c9Unit
        [⟨"version", { value := .int 3, dtype := .ty .int }⟩,
         ⟨"x", { value := .int 1, dtype := .ty .int }⟩] "PyParam" true
      = compileSourceCodeFromConfigsList c9Unit
        [⟨"version", { value := .int 3, dtype := .ty .int }⟩,
         ⟨"x", { value := .int 1, dtype := .ty .int }⟩] "PyParam" false := by
  have h := (compile_validates_version c9Unit
      [⟨"version", { value := .int 3, dtype := .ty .int }⟩,
       ⟨"x", { value := .int 1, dtype := .ty .int }⟩] "PyParam"
      [("version", ⟨["version"], true,
          .call (.name "PyParam") [.num 3] [], ([0], [])⟩),
       ("x", ⟨["x"], true,
          .call (.name "PyParam") [.num 1] [], ([1], [])⟩)]
      [(([0], []), ⟨"version", { value := .int 3, dtype := .ty .int }⟩),
       (([1], []), ⟨"x", { value := .int 1, dtype := .ty .int }⟩)]
      rfl rfl).2.2
      ⟨["version"], true, .call (.name "PyParam") [.num 3] [], ([0], [])⟩
      (.int 3)
      ⟨"version", { value := .int 3, dtype := .ty .int }⟩
      rfl rfl rfl rfl
  exact ⟨rfl, (h.2 (by simp [pyEqB])).1, (h.2 (by simp [pyEqB])).2⟩

theorem findAstExprStmt_banner (op : String) (st : PStmt)
    (h : IsBannerStmt st) : findAstExprStmt op st = .ok [] := by
  obtain ⟨s, rfl⟩ := h
  rfl

theorem findAstExprNodes_banners (op : String) (post : List PStmt)
    (h : ∀ st ∈ post, IsBannerStmt st) :
    findAstExprNodes op post = .ok [] := by
  induction post with
  | nil => rfl
  | cons st rest ih =>
      show (do
        let here ← findAstExprStmt op st
        Except.ok (here ++ (← findAstExprNodes op rest))) = _
      rw [findAstExprStmt_banner op st (h st (by simp)),
        ih (fun q hq => h q (by simp [hq]))]
      rfl

theorem findAstExprNodes_banner_middle (pre post : List PStmt) (p : String)
    (hpre : ∀ st ∈ pre, IsBannerStmt st)
    (hpost : ∀ st ∈ post, IsBannerStmt st) :
    findAstExprNodes includeSourceName (pre ++ includeDirStmt p :: post)
      = .ok [includeDirStmt p] := by
  induction pre with
  | nil =>
      show (do
        let here ← findAstExprStmt includeSourceName (includeDirStmt p)
        Except.ok (here ++ (← findAstExprNodes includeSourceName post))) = _
      rw [show findAstExprStmt includeSourceName (includeDirStmt p)
            = .ok [includeDirStmt p] from rfl,
        findAstExprNodes_banners includeSourceName post hpost]
      rfl
  | cons st rest ih =>
      show (do
        let here ← findAstExprStmt includeSourceName st
        Except.ok (here ++ (← findAstExprNodes includeSourceName
            (rest ++ includeDirStmt p :: post)))) = _
      rw [findAstExprStmt_banner includeSourceName st (hpre st (by simp)),
        ih (fun q hq => hpre q (by simp [hq]))]
      rfl

theorem spliceDirectiveStmt_banner (op path : String) (ins : List PStmt)
    (st : PStmt) (h : IsBannerStmt st) :
    spliceDirectiveStmt op path ins st = (false, [st]) := by
  obtain ⟨s, rfl⟩ := h
  rfl

theorem splice_banner_middle (pre post ins : List PStmt) (p : String)
    (hpre : ∀ st ∈ pre, IsBannerStmt st) :
    spliceFirstDirective includeSourceName p ins
        (pre ++ includeDirStmt p :: post)
      = (true, pre ++ ins ++ post) := by
  induction pre with
  | nil =>
      show spliceFirstDirective includeSourceName p ins
          (includeDirStmt p :: post) = _
      have hd : spliceDirectiveStmt includeSourceName p ins (includeDirStmt p)
          = (true, ins) := by
        show (if ("IncludeSource" = includeSourceName &&
            (match includePathOfDirective
                (.call (.name "IncludeSource") [.str p] []) with
             | .ok q => q = p
             | .error _ => false) : Bool)
          then (true, ins)
          else (false, [PStmt.exprStmt (.call (.name "IncludeSource") [.str p] [])])) = _
        simp [includePathOfDirective, astNodeToValue, includeSourceName,
          except_ok_bind]
      show (let fs := spliceDirectiveStmt includeSourceName p ins (includeDirStmt p)
            if fs.1 then (true, fs.2 ++ post)
            else
              let fr := spliceFirstDirective includeSourceName p ins post
              (fr.1, includeDirStmt p :: fr.2)) = _
      rw [hd]
      rfl
  | cons st rest ih =>
      show (let fs := spliceDirectiveStmt includeSourceName p ins st
            if fs.1 then (true, fs.2 ++ (rest ++ includeDirStmt p :: post))
            else
              let fr := spliceFirstDirective includeSourceName p ins
                  (rest ++ includeDirStmt p :: post)
              (fr.1, st :: fr.2)) = _
      rw [spliceDirectiveStmt_banner includeSourceName p ins st (hpre st (by simp))]
      simp only [ih (fun q hq => hpre q (by simp [hq]))]
      rfl

theorem includeSource_step (fuel : Nat) (src : List PStmt) (p : String)
    (hfind : findAstExprNodes includeSourceName src = .ok [includeDirStmt p])
    (hstmts : List PStmt) (henv : cyclicSearchEnv p = .ok hstmts) :
    includeSourceFromNodes cyclicSearchEnv (fuel + 1) src
      = includeSourceFromNodes cyclicSearchEnv fuel
          (spliceFirstDirective includeSourceName p
            (includeHeaderStmts p ++ hstmts ++ includeFooterStmts p) src).2 := by
  simp only [includeSourceFromNodes]
  rw [hfind]
  show (match (cyclicSearchEnv p : Except PyErr (List PStmt)) with
        | Except.error e =>
            (some (Except.error e) : Option (Except PyErr (List PStmt)))
        | Except.ok include_stmts =>
            includeSourceFromNodes cyclicSearchEnv fuel
              (spliceFirstDirective includeSourceName p
                (includeHeaderStmts p ++ include_stmts
                  ++ includeFooterStmts p) src).2) = _
  rw [henv]

theorem includeSource_cyclic_spins :
    ∀ (fuel : Nat) (pre post : List PStmt) (p : String),
      (∀ st ∈ pre, IsBannerStmt st) → (∀ st ∈ post, IsBannerStmt st) →
      (p = "unitA" ∨ p = "unitB") →
      includeSourceFromNodes cyclicSearchEnv fuel
        (pre ++ includeDirStmt p :: post) = Option.none := by
  intro fuel
  induction fuel with
  | zero => intro pre post p _ _ _; rfl
  | succ n ih =>
      intro pre post p hpre hpost hp
      have hfind := findAstExprNodes_banner_middle pre post p hpre hpost
      have hpre2 : ∀ (q : String) (st : PStmt),
          st ∈ pre ++ includeHeaderStmts q → IsBannerStmt st := by
        intro q st hst
        rcases List.mem_append.mp hst with h | h
        · exact hpre st h
        · simp only [includeHeaderStmts, List.mem_singleton] at h
          exact ⟨_, h⟩
      have hpost2 : ∀ (q : String) (st : PStmt),
          st ∈ includeFooterStmts q ++ post → IsBannerStmt st := by
        intro q st hst
        rcases List.mem_append.mp hst with h | h
        · simp only [includeFooterStmts, List.mem_singleton] at h
          exact ⟨_, h⟩
        · exact hpost st h
      rcases hp with rfl | rfl
      · rw [includeSource_step n _ "unitA" hfind [includeDirStmt "unitB"] rfl,
          splice_banner_middle pre post _ "unitA" hpre]
        have hre : pre ++ (includeHeaderStmts "unitA" ++ [includeDirStmt "unitB"]
              ++ includeFooterStmts "unitA") ++ post
            = (pre ++ includeHeaderStmts "unitA")
              ++ includeDirStmt "unitB"
                :: (includeFooterStmts "unitA" ++ post) := by
          simp [includeHeaderStmts, includeFooterStmts]
        rw [hre]
        exact ih _ _ _ (hpre2 "unitA") (hpost2 "unitA") (Or.inr rfl)
      · rw [includeSource_step n _ "unitB" hfind [includeDirStmt "unitA"] rfl,
          splice_banner_middle pre post _ "unitB" hpre]
        have hre : pre ++ (includeHeaderStmts "unitB" ++ [includeDirStmt "unitA"]
              ++ includeFooterStmts "unitB") ++ post
            = (pre ++ includeHeaderStmts "unitB")
              ++ includeDirStmt "unitA"
                :: (includeFooterStmts "unitB" ++ post) := by
          simp [includeHeaderStmts, includeFooterStmts]
        rw [hre]
        exact ih _ _ _ (hpre2 "unitB") (hpost2 "unitB") (Or.inl rfl)

/-- C5 (the code lacks the claimed guard): with units `unitA` and `unitB`
forming an inclusion cycle (`unitA` includes `unitB` which includes
`unitA`), `include_source_from_nodes` — the recursive source-inclusion
step that `include_modules` composition runs — never terminates: for
every fuel bound the fuelled model still has a pending directive and
returns no result at all, rather than failing with a cycle error (the
code has no cycle detection and no CyclicInclude error). -/
theorem include_source_cycle_nonterminating (fuel : Nat) :
    cyclicSearchEnv "unitA" = .ok [includeDirStmt "unitB"]
    ∧ cyclicSearchEnv "unitB" = .ok [includeDirStmt "unitA"]
    ∧ includeSourceFromNodes cyclicSearchEnv fuel [includeDirStmt "unitB"]
        = Option.none
    ∧ includeSourceFromNodes cyclicSearchEnv fuel [includeDirStmt "unitA"]
        = Option.none :=
  ⟨rfl, rfl,
   includeSource_cyclic_spins fuel [] [] "unitB" (by simp) (by simp)
     (Or.inr rfl),
   includeSource_cyclic_spins fuel [] [] "unitA" (by simp) (by simp)
     (Or.inl rfl)⟩
